import Mathlib

/-!
Verification of the SLA fuzzy license-matching core.

Shallow embedding of the Python sources:
  * `src/utils.py`                      — text normalization helpers
  * `src/search/fuzzy_license_search.py`— indexed aligner pipeline
  * `src/prototypes/fuzzy_match_prototype_with_versioning.py`
    and `src/prototypes/fuzzy_match_prototype_optimized.py`
                                        — LCS matcher (plain and pruned)
  * `src/tools/fuzzy_matches_evaluator.py` — best-match evaluator

Python strings are modelled as `List Char` (one entry per code point, so
Python character indices coincide with list indices).  Python floats are
modelled as `ℚ` (all percents here are exact rationals).  Fallible code is
modelled with `Except`/`Option`.
-/

/-- A Python string: a list of Unicode code points. -/
abbrev Str := List Char

namespace SLA

/-! ## Character classes (Python semantics, exact on the characters
used in this development, which are ASCII plus U+FF0E) -/

/-- Membership in Python `string.punctuation`
(`!"#$%&'()*+,-./:;<=>?@[\]^_{|}~` plus backquote). ASCII-only, as in Python. -/
def isPyPunct (c : Char) : Bool :=
  decide ((0x21 ≤ c.toNat ∧ c.toNat ≤ 0x2f) ∨ (0x3a ≤ c.toNat ∧ c.toNat ≤ 0x40) ∨
    (0x5b ≤ c.toNat ∧ c.toNat ≤ 0x60) ∨ (0x7b ≤ c.toNat ∧ c.toNat ≤ 0x7e))

/-- Python `str.isdigit()` restricted to the ASCII digits `0`-`9`
(exact for every character appearing in this development). -/
def isPyDigit (c : Char) : Bool :=
  decide (0x30 ≤ c.toNat ∧ c.toNat ≤ 0x39)

/-- Python whitespace as matched by `\s` / stripped by `str.strip()`,
restricted to the ASCII whitespace characters
(space, tab, newline, carriage return, vertical tab, form feed). -/
def isPySpace (c : Char) : Bool :=
  decide (c.toNat = 0x20 ∨ c.toNat = 0x09 ∨ c.toNat = 0x0a ∨ c.toNat = 0x0d ∨
    c.toNat = 0x0b ∨ c.toNat = 0x0c)

/-- Regex word character (`\w` / the `\b` boundary class): `[A-Za-z0-9_]`,
exact on the ASCII domain used here. -/
def isWordChar (c : Char) : Bool :=
  decide ((0x61 ≤ c.toNat ∧ c.toNat ≤ 0x7a) ∨ (0x41 ≤ c.toNat ∧ c.toNat ≤ 0x5a) ∨
    (0x30 ≤ c.toNat ∧ c.toNat ≤ 0x39) ∨ c.toNat = 0x5f)

/-- ASCII lowercasing, the effect of Python `str.lower()` /
`str.casefold()` on each character of the domain used here
(`casefold` and `lower` agree on ASCII; both fix U+FF0E). -/
def toLowerCh (c : Char) : Char :=
  if 0x41 ≤ c.toNat ∧ c.toNat ≤ 0x5a then Char.ofNat (c.toNat + 32) else c

/-- Unicode NFKC normalization, per code point.  Exact on the characters
used in this development: ASCII code points are NFKC-fixed, and
U+FF0E FULLWIDTH FULL STOP has compatibility decomposition `.` (U+002E).
Modelled as identity on all other code points. -/
def nfkcChar (c : Char) : List Char :=
  if c = '．' then ['.'] else [c]

/-- Python `unicodedata.category(ch).startswith("M")` (combining mark).  Exact on
the domain used here: the block U+0300–U+036F is `Mn`; ASCII and U+FF0E
are not marks.  Modelled as `false` on all other code points. -/
def isCombiningMark (c : Char) : Bool :=
  decide (0x300 ≤ c.toNat ∧ c.toNat ≤ 0x36f)

/-! ## `utils.remove_punctuation_keep_decimal_dots` (src/utils.py:194-231) -/

/-- Models `re.sub` of the pattern backslash-ampersand-dot to `.`: replace every (leftmost, non-overlapping)
occurrence of the three-character sequence `\&.` by `.`. -/
def subAmpDot : Str → Str
  | '\\' :: '&' :: '.' :: rest => '.' :: subAmpDot rest
  | c :: rest => c :: subAmpDot rest
  | [] => []

/-- The index-based loop of `remove_punctuation_keep_decimal_dots`, carried
out structurally: `prev` is the character at the previous index of the
*original* text (`none` at index 0); the head of the remaining list is the
current character and the next list entry is the lookahead.  A `.` is kept
only when both neighbours are digits; all other punctuation is dropped. -/
def rpkddGo (prev : Option Char) : Str → Str
  | [] => []
  | c :: rest =>
    if ¬ isPyPunct c then c :: rpkddGo (some c) rest
    else if c = '.' then
      (match prev, rest with
        | some p, n :: _ =>
          if isPyDigit p && isPyDigit n then c :: rpkddGo (some c) rest
          else rpkddGo (some c) rest
        | _, _ => rpkddGo (some c) rest)
    else rpkddGo (some c) rest

/-- Embedding of `utils.remove_punctuation_keep_decimal_dots` (src/utils.py:194-231). -/
def remove_punctuation_keep_decimal_dots (text : Str) : Str :=
  rpkddGo none (subAmpDot text)

/-! ## `utils.remove_punctuation_and_normalize_text` (src/utils.py:289-328) -/

/-- Models `re.sub` of whitespace-plus to a single space: collapse every maximal run of whitespace
to a single space.  `prevWs` records whether the previous character was
whitespace (i.e. whether we are inside a run already replaced). -/
def collapseWsGo (prevWs : Bool) : Str → Str
  | [] => []
  | c :: rest =>
    if isPySpace c then
      if prevWs then collapseWsGo true rest
      else ' ' :: collapseWsGo true rest
    else c :: collapseWsGo false rest

def collapseWs (s : Str) : Str := collapseWsGo false s

/-- Python `str.strip()`: drop leading and trailing whitespace. -/
def pyStrip (s : Str) : Str :=
  ((s.dropWhile isPySpace).reverse.dropWhile isPySpace).reverse

/-- Python `unicodedata.normalize` NFKC, on the modelled domain. -/
def nfkc (s : Str) : Str := s.flatMap nfkcChar

/-- The mark-stripping comprehension of src/utils.py:316-319. -/
def stripMarks (s : Str) : Str := s.filter (fun c => ¬ isCombiningMark c)

/-- Python `str.casefold()` on the modelled domain. -/
def caseFold (s : Str) : Str := s.map toLowerCh

/-- Embedding of `utils.remove_punctuation_and_normalize_text` (src/utils.py:289-328),
for string input (the bytes/None cases only affect decoding, which is
outside the `List Char` model): punctuation stripping (keeping decimal
dots), then NFKC, mark stripping, casefold, whitespace collapse, strip. -/
def remove_punctuation_and_normalize_text (value : Str) : Str :=
  pyStrip (collapseWs (caseFold (stripMarks (nfkc
    (remove_punctuation_keep_decimal_dots value)))))

end SLA

namespace SLA

/-! ## `utils` path and number helpers (src/utils.py:55-66, 388-427) -/

/-- Index of the last character satisfying `p`, if any. -/
def rfindIdx (p : Char → Bool) (s : Str) : Option Nat :=
  (s.reverse.findIdx? p).map (fun k => s.length - 1 - k)

/-- The part of `s` after the last `/` or `\` separator
(Python `re.split(r"[\\/]", str(path))[-1]`, also `Path(x).name` on the
separator-free names used here). -/
def lastComponent (s : Str) : Str :=
  match rfindIdx (fun c => c = '/' || c = '\\') s with
  | none => s
  | some i => s.drop (i + 1)

/-- Python `os.path.splitext` applied to a bare file name, keeping the stem:
split at the last dot unless every character before it is a dot
(so `.bashrc` keeps its name, `a.b.c` becomes `a.b`). -/
def splitextStem (name : Str) : Str :=
  match rfindIdx (fun c => c = '.') name with
  | none => name
  | some i => if (name.take i).any (fun c => c ≠ '.') then name.take i else name

/-- Embedding of `utils.get_file_name_from_path_without_extension`
(src/utils.py:55-66). -/
def get_file_name_from_path_without_extension (path : Str) : Str :=
  splitextStem (lastComponent path)

/-- Parses the regex `\d+(?:\.\d+)?` at the head of `s`: one or more digits,
then optionally a dot followed by one or more digits.  Returns the matched
text and the remainder. -/
def numToken (s : Str) : Option (Str × Str) :=
  let ds := s.takeWhile isPyDigit
  if ds.isEmpty then none
  else
    let rest := s.drop ds.length
    match rest with
    | '.' :: r2 =>
      let ds2 := r2.takeWhile isPyDigit
      if ds2.isEmpty then some (ds, rest)
      else some (ds ++ '.' :: ds2, r2.drop ds2.length)
    | _ => some (ds, rest)

/-- First match of `\d+(?:\.\d+)?` anywhere in `s` (regex `re.search`):
try each start position left to right. -/
def firstNumber : Str → Option Str
  | [] => none
  | c :: rest =>
    match numToken (c :: rest) with
    | some (m, _) => some m
    | none => firstNumber rest

/-- Embedding of `utils.extract_version_from_name` (src/utils.py:388-405):
first `\d+(\.\d+)?` substring of the file name. -/
def extract_version_from_name (filename : Str) : Option Str :=
  firstNumber (lastComponent filename)

/-- Checks Python `re.fullmatch(r'[+-]?\d+', s)`. -/
def isSignedIntStr (s : Str) : Bool :=
  match s with
  | '+' :: ds => ¬ ds.isEmpty && ds.all isPyDigit
  | '-' :: ds => ¬ ds.isEmpty && ds.all isPyDigit
  | ds => ¬ ds.isEmpty && ds.all isPyDigit

/-- Python `f"{int(s)}.0"` for a string matching `[+-]?\d+`: canonical
decimal form of the integer (drop `+`, strip leading zeros, `-0` is `0`)
followed by `.0`. -/
def intCanonDot0 (s : Str) : Str :=
  let signDigits : Bool × Str :=
    match s with
    | '+' :: ds => (false, ds)
    | '-' :: ds => (true, ds)
    | ds => (false, ds)
  let ds := signDigits.2.dropWhile (fun c => c = '0')
  let ds := if ds.isEmpty then ['0'] else ds
  let body := if signDigits.1 && ds ≠ ['0'] then '-' :: ds else ds
  body ++ ['.', '0']

/-- Embedding of `utils.normalize_number_string` (src/utils.py:408-427) on
its annotated domain `Optional[str]`.  (The pipeline call that passes a
`list` instead raises `AttributeError`; that case is modelled at the call
site in `processPair`.) -/
def normalize_number_string (value : Option Str) : Option Str :=
  match value with
  | none => none
  | some v =>
    let s := pyStrip v
    if isSignedIntStr s then some (intCanonDot0 s) else some s

/-! ## The version-cue regex `_VERSION_RE`
(src/search/fuzzy_license_search.py:267-319, identical in the prototypes):
`\bversion\s+(\d+(?:\.\d+)?) | \bv\.?\s*(\d+(?:\.\d+)?) | \blicense\s+(\d+(?:\.\d+)?)`
with `re.IGNORECASE`, scanned with `finditer` semantics (leftmost match,
first alternative, continue after each match). -/

/-- Case-insensitive literal match at the head of `s`; returns the rest. -/
def litCI (w : Str) (s : Str) : Option Str :=
  if (s.take w.length).map toLowerCh = w.map toLowerCh then some (s.drop w.length)
  else none

/-- Matches `\s+` at the head of `s`; returns the rest. -/
def ws1 (s : Str) : Option Str :=
  let r := s.dropWhile isPySpace
  if r.length = s.length then none else some r

/-- Alternative `version\s+(\d+(?:\.\d+)?)` at the current position. -/
def altVersionWord (s : Str) : Option (Str × Str) :=
  match litCI "version".toList s with
  | some r =>
    match ws1 r with
    | some r2 => numToken r2
    | none => none
  | none => none

/-- Alternative `v\.?\s*(\d+(?:\.\d+)?)` at the current position, with the
regex engine's backtracking over the optional dot. -/
def altVShort (s : Str) : Option (Str × Str) :=
  match litCI "v".toList s with
  | some r =>
    let withDot : Option (Str × Str) :=
      match r with
      | '.' :: t => numToken (t.dropWhile isPySpace)
      | _ => none
    match withDot with
    | some x => some x
    | none => numToken (r.dropWhile isPySpace)
  | none => none

/-- Alternative `license\s+(\d+(?:\.\d+)?)` at the current position. -/
def altLicenseWord (s : Str) : Option (Str × Str) :=
  match litCI "license".toList s with
  | some r =>
    match ws1 r with
    | some r2 => numToken r2
    | none => none
  | none => none

/-- Tries the three alternatives of `_VERSION_RE` in order at the current
position (which is assumed to sit at a `\b` boundary). -/
def tryVersionAlts (s : Str) : Option (Str × Str) :=
  match altVersionWord s with
  | some x => some x
  | none =>
    match altVShort s with
    | some x => some x
    | none => altLicenseWord s

/-- Left-to-right `finditer` scan for `_VERSION_RE`, collecting each
captured number.  `prevW` tracks whether the character before the current
position is a word character (for `\b`); every match ends in a digit, so
after a match `prevW` is true.  `fuel` only bounds the recursion; any
`fuel ≥ length` is exact. -/
def scanVersionsGo : Nat → Bool → Str → List Str
  | 0, _, _ => []
  | _, _, [] => []
  | fuel + 1, prevW, c :: rest =>
    if ¬ prevW && isWordChar c then
      match tryVersionAlts (c :: rest) with
      | some (num, after) => num :: scanVersionsGo fuel true after
      | none => scanVersionsGo fuel (isWordChar c) rest
    else scanVersionsGo fuel (isWordChar c) rest

/-- All captured numbers of `_VERSION_RE` in `text`, in match order. -/
def scanVersions (text : Str) : List Str :=
  scanVersionsGo text.length false text

/-- Embedding of `_extract_version`
(src/search/fuzzy_license_search.py:277-292, and the identical copies in
both prototypes): the first captured number, or `none`. -/
def extract_version_first (text : Str) : Option Str :=
  (scanVersions text).head?

/-- Embedding of `_extract_versions`
(src/search/fuzzy_license_search.py:295-319): all distinct captured
numbers in first-seen order; `none` for falsy text or zero hits. -/
def extract_versions_all (text : Str) : Option (List Str) :=
  if text.isEmpty then none
  else
    let vs := (scanVersions text).foldl
      (fun acc g => if g ∈ acc then acc else acc ++ [g]) []
    if vs.isEmpty then none else some vs

end SLA

namespace SLA

/-- Python `(x / y) * 100.0` for nonnegative integer counts, as an exact
rational.  Written with `Rat.divInt` (rather than `ℚ` division) so that
concrete instances evaluate by kernel reduction; `pct_eq` below restates
it as ordinary rational division. -/
def pct (num den : Nat) : ℚ :=
  Rat.divInt (num * 100) den

theorem pct_eq (num den : Nat) : pct num den = (num : ℚ) * 100 / den := by
  rw [pct, Rat.divInt_eq_div]
  push_cast
  ring

/-! ## Tokenization with spans
(`_tokenize_with_spans` in the commented copy at
src/search/fuzzy_license_search.py:22-34 and `_tokenize` in both
prototypes, src/prototypes/fuzzy_match_prototype_with_versioning.py:31-43):
`WORD_RE = \S+` found with `finditer`, keeping character spans. -/

/-- A whitespace-delimited token with its character span in the text it was
cut from.  `stop` is Python's `end` (half-open). -/
structure Token where
  raw : Str
  norm : Str
  start : Nat
  stop : Nat
  deriving Repr, DecidableEq, Inhabited

/-- Makes the token starting at position `pos` from the nonempty run `run`
(`norm` is `word.lower()`). -/
def mkToken (run : Str) (pos : Nat) : Token :=
  { raw := run, norm := run.map toLowerCh, start := pos, stop := pos + run.length }

/-- Scans for maximal runs of non-whitespace.  `pos` is the index of the
head of the remaining list in the full text; `fuel ≥ length` is exact. -/
def tokenizeGo : Nat → Nat → Str → List Token
  | 0, _, _ => []
  | _, _, [] => []
  | fuel + 1, pos, c :: rest =>
    if isPySpace c then tokenizeGo fuel (pos + 1) rest
    else
      let run := (c :: rest).takeWhile (fun ch => ¬ isPySpace ch)
      mkToken run pos :: tokenizeGo fuel (pos + run.length) ((c :: rest).drop run.length)

/-- Embedding of the span tokenizer: `WORD_RE.finditer` over `s`. -/
def tokenizeSpans (s : Str) : List Token :=
  tokenizeGo s.length 0 s

/-- Python slice `s[a:b]`. -/
def sliceStr (s : Str) (a b : Nat) : Str :=
  (s.drop a).take (b - a)

/-! ## Anchor (k-gram) indexes.
Modelled from the spec: the defining module `tools/index_file_content.py`
(`FileIndex`, `PatternIndex`, `MatchResult`, `build_file_indexes`,
`build_pattern_indexes_from_dict`) is not under src/; these definitions
follow spec §3/§4.4 and the verbatim commented-out copies at
src/search/fuzzy_license_search.py:16-134.  Python dicts are modelled as
association lists in key-insertion order (`setdefault(...).append`). -/

/-- An anchor key: the tuple of `anchorSize` consecutive normalized tokens.
Python's k-tuple is modelled as a `List Str` of length `anchorSize`. -/
abbrev Anchor := List Str

/-- An insertion-ordered dict from anchors to their start positions. -/
abbrev AnchorMap := List (Anchor × List Nat)

/-- Python `d.setdefault(key, []).append(v)` on an insertion-ordered dict. -/
def upsertAnchor (m : AnchorMap) (key : Anchor) (v : Nat) : AnchorMap :=
  match m with
  | [] => [(key, [v])]
  | (k, vs) :: rest =>
    if k = key then (k, vs ++ [v]) :: rest else (k, vs) :: upsertAnchor rest key v

/-- Python `d.get(key)` on an association list. -/
def alookup (m : AnchorMap) (key : Anchor) : Option (List Nat) :=
  match m with
  | [] => none
  | (k, vs) :: rest => if k = key then some vs else alookup rest key

/-- The window of `k` consecutive entries of `norms` starting at `i`. -/
def anchorAt (norms : List Str) (i k : Nat) : Anchor :=
  (norms.drop i).take k

/-- Builds the anchor-positions dict: for each window start
`i ∈ range(len(tokens) - anchorSize + 1)` record the window's tuple. -/
def buildAnchorMap (norms : List Str) (k : Nat) : AnchorMap :=
  (List.range (norms.length + 1 - k)).foldl
    (fun m i => upsertAnchor m (anchorAt norms i k) i) []

/-- Modelled from the spec: `FileIndex` of tools/index_file_content.py
(spec §4.4; commented copy src/search/fuzzy_license_search.py:37-42).
The `source_obj` back-reference is handled outside the index. -/
structure FileIndex where
  text : Str
  tokens : List Token
  trigram_positions : AnchorMap
  deriving Repr, DecidableEq

/-- Modelled from the spec: `PatternIndex` of tools/index_file_content.py
(spec §4.4; commented copy src/search/fuzzy_license_search.py:45-51).
`anchor_keys` keeps the key set as a list in dict order. -/
structure PatternIndex where
  source_path : Str
  text : Str
  tokens : List Str
  anchor_positions : AnchorMap
  anchor_keys : List Anchor
  deriving Repr, DecidableEq

/-- Modelled from the spec: `MatchResult` of tools/index_file_content.py
(spec §3; commented copy src/search/fuzzy_license_search.py:54-62).
`found_version` holds what the pipeline stores there at runtime — the
de-duplicated list from `_extract_versions` — when it is stored at all. -/
structure MatchResult where
  matched_substring : Str
  match_percent : ℚ
  start_index : Nat
  end_index : Nat
  expected_version : Option Str := none
  found_version : Option (List Str) := none
  license_name : Option Str := none
  deriving Repr, DecidableEq

/-- Modelled from the spec: `build_file_indexes` for one file
(spec §4.4; commented copy src/search/fuzzy_license_search.py:65-92):
normalize the content, tokenize with spans, index every `anchorSize`-gram
of normalized tokens. -/
def buildFileIndex (content : Str) (anchorSize : Nat) : FileIndex :=
  let text := remove_punctuation_and_normalize_text content
  let tokens := tokenizeSpans text
  { text := text, tokens := tokens,
    trigram_positions := buildAnchorMap (tokens.map Token.norm) anchorSize }

/-- Modelled from the spec: `build_pattern_indexes_from_dict` for one
pattern (spec §4.4; commented copy src/search/fuzzy_license_search.py:96-134):
the text arrives already normalized; tokens are lowercased; texts shorter
than `anchorSize` tokens get empty anchor maps. -/
def buildPatternIndex (path : Str) (content : Str) (anchorSize : Nat) :
    PatternIndex :=
  let tokens := (tokenizeSpans content).map Token.norm
  if tokens.length < anchorSize then
    { source_path := path, text := content, tokens := tokens,
      anchor_positions := [], anchor_keys := [] }
  else
    let ap := buildAnchorMap tokens anchorSize
    { source_path := path, text := content, tokens := tokens,
      anchor_positions := ap, anchor_keys := ap.map Prod.fst }

end SLA

namespace SLA

/-! ## `_align_with_gaps` (src/search/fuzzy_license_search.py:137-201) -/

/-- The lookahead loop `for k in range(1, gap_lookahead + 1)` with the
out-of-bounds `break`: the first `k ∈ [1, g]` with `base + k` in bounds
and `elems[base + k] = target`, returned as the absolute index
`base + k`.  (Once `base + k` leaves the list no later `k` re-enters it,
so the `break` equals skipping.) -/
def findAheadIdx (elems : List Str) (base : Nat) (g : Nat) (target : Str) :
    Option Nat :=
  ((List.range' 1 g).find?
    (fun k => decide (base + k < elems.length) &&
      decide (elems.getD (base + k) [] = target))).map (base + ·)

/-- Norm of the file token at `fi` (`file_tokens[fi]["norm"]`). -/
def fnorm (fileToks : List Token) (fi : Nat) : Str :=
  (fileToks.getD fi default).norm

/-- The `while fi < n_file and pj < n_pattern` loop of `_align_with_gaps`.
Each iteration strictly decreases `(n_file - fi) + (n_pattern - pj)`, so
any `fuel` above that sum is exact. -/
def alignGo (fileToks : List Token) (pat : List Str) (g : Nat) :
    Nat → Nat → Nat → Nat → Int → Nat × Int
  | 0, _, _, m, last => (m, last)
  | fuel + 1, fi, pj, m, last =>
    if fi < fileToks.length ∧ pj < pat.length then
      if fnorm fileToks fi = pat.getD pj [] then
        alignGo fileToks pat g fuel (fi + 1) (pj + 1) (m + 1) (Int.ofNat fi)
      else
        match findAheadIdx (fileToks.map Token.norm) fi g (pat.getD pj []),
              findAheadIdx pat pj g (fnorm fileToks fi) with
        | some nf, some np =>
          if nf - fi ≤ np - pj then alignGo fileToks pat g fuel nf pj m last
          else alignGo fileToks pat g fuel fi np m last
        | some nf, none => alignGo fileToks pat g fuel nf pj m last
        | none, some np => alignGo fileToks pat g fuel fi np m last
        | none, none => alignGo fileToks pat g fuel (fi + 1) (pj + 1) m last
    else (m, last)

/-- Embedding of `_align_with_gaps`
(src/search/fuzzy_license_search.py:137-201).  Returns
`(extra_matches, last_match_file_idx)` with the sentinel
`fi_start - 1` (as an integer) when nothing matched. -/
def align_with_gaps (fileToks : List Token) (pat : List Str)
    (fi_start pj_start : Nat) (g : Nat) : Nat × Int :=
  alignGo fileToks pat g (fileToks.length + pat.length + 1) fi_start pj_start
    0 (Int.ofNat fi_start - 1)

/-! ## `best_match_indexed` (src/search/fuzzy_license_search.py:204-264) -/

/-- One `(i, j0)` candidate of the inner loops: anchor-extended alignment,
scored and sliced exactly as in src/search/fuzzy_license_search.py:229-262. -/
def candidateResult (f : FileIndex) (p : PatternIndex)
    (anchor_size g : Nat) (i j0 : Nat) : MatchResult :=
  let fileToks := f.tokens
  let extra := align_with_gaps fileToks p.tokens (i + anchor_size)
    (j0 + anchor_size) g
  let nMatches := anchor_size + extra.1
  let last : Int :=
    if extra.1 > 0 then extra.2 else Int.ofNat (i + anchor_size) - 1
  let start_char := (fileToks.getD i default).start
  let end_char := (fileToks.getD last.toNat default).stop
  { matched_substring := sliceStr f.text start_char end_char,
    match_percent := pct nMatches p.tokens.length,
    start_index := start_char, end_index := end_char }

/-- The `if best_result is None or match_percent > best_result.match_percent`
update. -/
def keepBetter (best : Option MatchResult) (r : MatchResult) :
    Option MatchResult :=
  match best with
  | none => some r
  | some b => if r.match_percent > b.match_percent then some r else some b

/-- Embedding of `best_match_indexed`
(src/search/fuzzy_license_search.py:204-264).  The Python iteration over
the set `f.trigram_positions.keys() & p.anchor_keys` has unspecified
(hash) order; it is modelled in the file-dict insertion order.  Every
claim proved below quantifies over the retained result, so it holds for
any iteration order. -/
def best_match_indexed (f : FileIndex) (p : PatternIndex)
    (anchor_size : Nat := 3) (g : Nat := 5) : Option MatchResult :=
  let fileToks := f.tokens
  let n_pattern := p.tokens.length
  if fileToks.isEmpty ∨ n_pattern < anchor_size then none
  else
    let common := f.trigram_positions.filter (fun kv => kv.1 ∈ p.anchor_keys)
    if common.isEmpty then none
    else
      common.foldl (fun best kv =>
        let file_positions := kv.2
        let pattern_positions := (alookup p.anchor_positions kv.1).getD []
        file_positions.foldl (fun best i =>
          pattern_positions.foldl (fun best j0 =>
            keepBetter best (candidateResult f p anchor_size g i j0))
            best) best) none

/-! ## The pipeline body `fuzzy_match_assessment_files_for_licenses`
(src/search/fuzzy_license_search.py:322-346), per (file, pattern) pair. -/

/-- One iteration of the nested loops of
`fuzzy_match_assessment_files_for_licenses` for a single
`(f_idx, p_idx)` pair: `.ok (some r)` means `r` is appended to the file's
`fuzzy_license_matches`; `.ok none` means nothing is appended.  When the
kept match's substring yields version cues, line 345 calls
`utils.normalize_number_string` (annotated `Optional[str]`) on the *list*
returned by `_extract_versions`, and `value.strip()` raises
`AttributeError` — modelled as `.error`. -/
def processPair (f : FileIndex) (p : PatternIndex) : Except String (Option MatchResult) :=
  match best_match_indexed f p 3 5 with
  | none => .ok none
  | some r =>
    if r.match_percent > 50 then
      let license_name := get_file_name_from_path_without_extension p.source_path
      let expected := extract_version_from_name license_name
      match extract_versions_all r.matched_substring with
      | some _ => .error "AttributeError: 'list' object has no attribute 'strip'"
      | none =>
        .ok (some { r with
          license_name := some license_name,
          expected_version := expected,
          found_version := none })
    else .ok none

end SLA

namespace SLA

/-! ## `_lcs_dp_with_indices`
(src/prototypes/fuzzy_match_prototype_with_versioning.py:46-84, and the
row-cached but numerically identical copy in
src/prototypes/fuzzy_match_prototype_optimized.py:46-88). -/

/-- Fills one DP row after index 0: walking `bs`, `prev` is the previous
row from index `j-1` on, `left` is `row[j-1]`.
`row[j] = prev[j-1] + 1` on a token match, else `max(prev[j], row[j-1])`
(the code's `above if above >= left else left`). -/
def lcsRowGo (ai : Str) : List Str → List Nat → Nat → List Nat
  | [], _, _ => []
  | b :: bs, prev, left =>
    let diag := prev.headD 0
    let up := (prev.drop 1).headD 0
    let cur := if ai = b then diag + 1 else max up left
    cur :: lcsRowGo ai bs (prev.drop 1) cur

/-- Row `i` of the DP table (index 0 stays 0). -/
def lcsRow (ai : Str) (bs : List Str) (prevRow : List Nat) : List Nat :=
  0 :: lcsRowGo ai bs prevRow 0

/-- Rows `1..m` of the table, each built from its predecessor. -/
def lcsTableGo (b : List Str) : List Str → List Nat → List (List Nat)
  | [], _ => []
  | ai :: arest, prevRow =>
    let r := lcsRow ai b prevRow
    r :: lcsTableGo b arest r

/-- The full `(m+1) × (n+1)` DP table `dp`. -/
def lcsTable (a b : List Str) : List (List Nat) :=
  List.replicate (b.length + 1) 0 :: lcsTableGo b a (List.replicate (b.length + 1) 0)

/-- Table lookup `dp[i][j]`. -/
def dpGet (table : List (List Nat)) (i j : Nat) : Nat :=
  (table.getD i []).getD j 0

/-- The backtracking `while i > 0 and j > 0` loop, collecting pairs in
reverse order; `fuel ≥ i + j` is exact. -/
def lcsBackGo (a b : List Str) (table : List (List Nat)) :
    Nat → Nat → Nat → List (Nat × Nat)
  | 0, _, _ => []
  | fuel + 1, i, j =>
    match i, j with
    | i' + 1, j' + 1 =>
      if a.getD i' [] = b.getD j' [] then
        (i', j') :: lcsBackGo a b table fuel i' j'
      else if dpGet table i' (j' + 1) ≥ dpGet table (i' + 1) j' then
        lcsBackGo a b table fuel i' (j' + 1)
      else lcsBackGo a b table fuel (i' + 1) j'
    | _, _ => []

/-- Embedding of `_lcs_dp_with_indices`: LCS length and one alignment
(pairs of `(index in a, index in b)` in increasing order). -/
def lcs_dp_with_indices (a b : List Str) : Nat × List (Nat × Nat) :=
  let table := lcsTable a b
  (dpGet table a.length b.length,
   (lcsBackGo a b table (a.length + b.length) a.length b.length).reverse)

/-! ## `_select_longest_contiguous_run`
(src/prototypes/fuzzy_match_prototype_with_versioning.py:87-119, identical
copy in fuzzy_match_prototype_optimized.py:91-121). -/

/-- Does `q` continue a contiguous run after `p`
(`bi == ai + 1 and bj == aj + 1`)? -/
def succStep (p q : Nat × Nat) : Bool :=
  q.1 = p.1 + 1 && q.2 = p.2 + 1

/-- The scan `for i in range(1, len(pairs))` plus the final-run check,
carried out sequentially: `prev = pairs[i-1]`, `i` counts processed
elements, `start` is the current run's first index, `(bs, be, bl)` is the
best run so far as `(best_start, best_end, best_len)`.  Returns the final
`(best_start, best_end)`. -/
def selLoop (prev : Nat × Nat) (i start bs be bl : Nat) :
    List (Nat × Nat) → Nat × Nat
  | [] =>
    let runLen := i - start
    if runLen > bl then (start, i - 1) else (bs, be)
  | q :: rest =>
    if succStep prev q then selLoop q (i + 1) start bs be bl rest
    else
      let runLen := i - start
      if runLen > bl then selLoop q (i + 1) i start (i - 1) runLen rest
      else selLoop q (i + 1) i bs be bl rest

/-- Embedding of `_select_longest_contiguous_run`: the slice
`pairs[best_start : best_end + 1]` for the first longest contiguous run. -/
def select_longest_contiguous_run (pairs : List (Nat × Nat)) :
    List (Nat × Nat) :=
  match pairs with
  | [] => []
  | p :: rest =>
    let best := selLoop p 1 0 0 0 1 rest
    (pairs.drop best.1).take (best.2 + 1 - best.1)

end SLA

namespace SLA

/-! ## `fuzzy_match_in_file`
(src/prototypes/fuzzy_match_prototype_with_versioning.py:153-232) and
`prepare_text`/`fuzzy_match_prepared`
(src/prototypes/fuzzy_match_prototype_optimized.py:155-260).
Both prototypes share verbatim the post-prune match logic; it is factored
here into `lcsCore`. -/

/-- The prototypes' `MatchResult` dataclass (single `found_version`). -/
structure PMatchResult where
  matched_substring : Str
  match_percent : ℚ
  start_index : Nat
  end_index : Nat
  expected_version : Option Str := none
  found_version : Option Str := none
  deriving Repr, DecidableEq

/-- The shared strong/weak LCS match logic of both prototypes
(fuzzy_match_prototype_with_versioning.py:190-220, identical in
fuzzy_match_prototype_optimized.py:218-251): LCS plus alignment, choose
full LCS (≥ 80%) or the longest contiguous block (< 80%), and build the
matched substring from the chosen file tokens.  Returns
`(match_percent, matched_substring, start_index, end_index)`. -/
def lcsCore (patToks txtToks : List Token) (patSeq txtSeq : List Str) :
    Option (ℚ × Str × Nat × Nat) :=
  let r := lcs_dp_with_indices patSeq txtSeq
  if r.1 = 0 ∨ r.2.isEmpty then none
  else
    let m := patToks.length
    let lcs_percent : ℚ := pct r.1 m
    let sel : Option (ℚ × List Nat) :=
      if lcs_percent ≥ 80 then
        some (lcs_percent,
          List.insertionSort (· ≤ ·) ((r.2.map Prod.snd).dedup))
      else
        let contiguous := select_longest_contiguous_run r.2
        if contiguous.isEmpty then none
        else some (pct contiguous.length m, contiguous.map Prod.snd)
    match sel with
    | none => none
    | some (percent, idxs) =>
      if idxs.isEmpty then none
      else
        let substring := List.intercalate [' ']
          (idxs.map (fun i => (txtToks.getD i default).raw))
        some (percent, substring,
          (txtToks.getD (idxs.headD 0) default).start,
          (txtToks.getD (idxs.getLastD 0) default).stop)

/-- Embedding of `fuzzy_match_in_file`
(fuzzy_match_prototype_with_versioning.py:153-232).  Note lines 222-223:
`expected_version` comes from the pattern but `found_version` comes from
the *whole* `file_text`. -/
def fuzzy_match_in_file (pattern file_text : Str) : Option PMatchResult :=
  if pattern.isEmpty ∨ file_text.isEmpty then none
  else
    let patToks := tokenizeSpans pattern
    let txtToks := tokenizeSpans file_text
    if patToks.isEmpty ∨ txtToks.isEmpty then none
    else
      (lcsCore patToks txtToks (patToks.map Token.norm)
        (txtToks.map Token.norm)).map fun q =>
        { matched_substring := q.2.1, match_percent := q.1,
          start_index := q.2.2.1, end_index := q.2.2.2,
          expected_version := extract_version_first pattern,
          found_version := extract_version_first file_text }

/-- The optimized prototype's `PreparedText` dataclass
(fuzzy_match_prototype_optimized.py:155-161); `freq` is the `Counter` in
first-occurrence order. -/
structure PreparedText where
  raw_text : Str
  tokens : List Token
  norms : List Str
  freq : List (Str × Nat)
  version : Option Str
  deriving Repr, DecidableEq

/-- Python `Counter` update for one element. -/
def counterAdd (m : List (Str × Nat)) (x : Str) : List (Str × Nat) :=
  match m with
  | [] => [(x, 1)]
  | (k, n) :: rest =>
    if k = x then (k, n + 1) :: rest else (k, n) :: counterAdd rest x

/-- Python `Counter(xs)` as an insertion-ordered association list. -/
def counter (xs : List Str) : List (Str × Nat) :=
  xs.foldl counterAdd []

/-- Python `freq.get(w)` with `None`/`0` both failing the `if c_txt:`
test: the stored count, or 0. -/
def countLookup (m : List (Str × Nat)) (w : Str) : Nat :=
  match m with
  | [] => 0
  | (k, n) :: rest => if k = w then n else countLookup rest w

/-- Embedding of `prepare_text` (fuzzy_match_prototype_optimized.py:164-179). -/
def prepare_text (normalized_text : Str) : PreparedText :=
  let tokens := tokenizeSpans normalized_text
  let norms := tokens.map Token.norm
  { raw_text := normalized_text, tokens := tokens, norms := norms,
    freq := counter norms, version := extract_version_first normalized_text }

/-- The multiset-overlap upper bound loop of `fuzzy_match_prepared`
(fuzzy_match_prototype_optimized.py:202-210):
`Σ_w min(count_pat w, count_txt w)` over the pattern's counter. -/
def overlapCount (freqPat freqTxt : List (Str × Nat)) : Nat :=
  freqPat.foldl (fun acc kv =>
    let cTxt := countLookup freqTxt kv.1
    if cTxt ≠ 0 then acc + (if cTxt < kv.2 then cTxt else kv.2) else acc) 0

/-- Embedding of `fuzzy_match_prepared`
(fuzzy_match_prototype_optimized.py:182-260): prune when even the best
case stays below `MIN_KEEP_PERCENT = 50.0`, else the shared LCS logic. -/
def fuzzy_match_prepared (pattern text : PreparedText) : Option PMatchResult :=
  if pattern.tokens.isEmpty ∨ text.tokens.isEmpty then none
  else
    let m := pattern.tokens.length
    let max_possible : ℚ := pct (overlapCount pattern.freq text.freq) m
    if max_possible < 50 then none
    else
      (lcsCore pattern.tokens text.tokens pattern.norms text.norms).map fun q =>
        { matched_substring := q.2.1, match_percent := q.1,
          start_index := q.2.2.1, end_index := q.2.2.2,
          expected_version := pattern.version,
          found_version := text.version }

/-! ## `determine_best_fuzzy_match_from_file_data`
(src/tools/fuzzy_matches_evaluator.py:5-37) -/

/-- The evaluator's loop state:
`best_match_percent`, `best_exact_match_percent`, `best_fuzzy_match`,
`prior_match_version_was_exact`. -/
structure EvalState where
  best_percent : ℚ
  best_exact_percent : ℚ
  best : Option MatchResult
  prior_exact : Bool
  deriving Repr, DecidableEq

/-- The initial state (lines 8-11). -/
def initEvalState : EvalState :=
  { best_percent := 0, best_exact_percent := 0, best := none,
    prior_exact := false }

/-- The body of the inner `for found_version in found_versions` loop
(lines 16-25). -/
def evalInner (c : MatchResult) (s : EvalState) (v : Str) : EvalState :=
  if c.expected_version = some v then
    if c.match_percent > s.best_exact_percent then
      { best_percent := c.match_percent,
        best_exact_percent := c.match_percent,
        best := some c, prior_exact := true }
    else s
  else if ¬ s.prior_exact ∧ c.match_percent > s.best_percent then
    { s with best_percent := c.match_percent, best := some c }
  else s

/-- One candidate step (lines 12-35): with a truthy `found_versions` run
the inner loop; otherwise branch on `expected_version is None`. -/
def evalStep (s : EvalState) (c : MatchResult) : EvalState :=
  match c.found_version with
  | some (v :: vs) => (v :: vs).foldl (evalInner c) s
  | _ =>
    match c.expected_version with
    | none =>
      if c.match_percent > s.best_exact_percent then
        { best_percent := c.match_percent,
          best_exact_percent := c.match_percent,
          best := some c, prior_exact := true }
      else s
    | some _ =>
      if ¬ s.prior_exact ∧ c.match_percent > s.best_percent then
        { s with best_percent := c.match_percent, best := some c }
      else s

/-- The per-file slice of the external `FileData` record the evaluator
touches (spec §3 `FileRecord`). -/
structure FileData where
  fuzzy_license_matches : List MatchResult
  license_names : List (Option Str)
  fuzzy_license_match : Option MatchResult
  deriving Repr, DecidableEq

/-- Embedding of the per-file body of
`determine_best_fuzzy_match_from_file_data` (lines 6-37): skip files with
no candidates, else fold the candidates and write back
`best_fuzzy_match.license_name` / `best_fuzzy_match`.  When every branch
was skipped, `best_fuzzy_match` is `None` and line 36 raises
`AttributeError` — modelled as `.error`. -/
def determine_best_for_file (fd : FileData) : Except String FileData :=
  if fd.fuzzy_license_matches.isEmpty then .ok fd
  else
    let s := fd.fuzzy_license_matches.foldl evalStep initEvalState
    match s.best with
    | none => .error "AttributeError: 'NoneType' object has no attribute 'license_name'"
    | some b =>
      .ok { fd with
        license_names := fd.license_names ++ [b.license_name],
        fuzzy_license_match := some b }

end SLA

namespace SLA

/-! ## Evaluator lemmas -/

/-- Has this candidate a version-exact hit in the sense of the evaluator:
either some found version equals the expected one, or the version
requirement is vacuous (no found versions and no expected version)? -/
def versionExactHitB (c : MatchResult) : Bool :=
  match c.found_version with
  | some (v :: vs) => (v :: vs).any (fun w => c.expected_version = some w)
  | _ => c.expected_version = none

theorem evalInner_prior_mono (c : MatchResult) (s : EvalState) (v : Str)
    (h : s.prior_exact = true) : (evalInner c s v).prior_exact = true := by
  unfold evalInner
  split
  · split <;> simp [h]
  · split <;> simp [h]

theorem evalInner_skip (c : MatchResult) (s : EvalState) (v : Str)
    (h : s.prior_exact = true) (hv : c.expected_version ≠ some v) :
    evalInner c s v = s := by
  unfold evalInner
  rw [if_neg hv, if_neg]
  simp [h]

theorem evalInner_fold_skip (c : MatchResult) (s : EvalState) (l : List Str)
    (h : s.prior_exact = true) (hv : ∀ v ∈ l, c.expected_version ≠ some v) :
    l.foldl (evalInner c) s = s := by
  induction l with
  | nil => rfl
  | cons v vs ih =>
    have h1 : evalInner c s v = s :=
      evalInner_skip c s v h (hv v (List.mem_cons_self v vs))
    simp only [List.foldl_cons, h1]
    exact ih (fun w hw => hv w (List.mem_cons_of_mem v hw))

theorem evalInner_fold_prior_mono (c : MatchResult) (ws : List Str) :
    ∀ (t : EvalState), t.prior_exact = true →
      (ws.foldl (evalInner c) t).prior_exact = true := by
  induction ws with
  | nil => intro t ht; exact ht
  | cons w ws ih =>
    intro t ht
    exact ih _ (evalInner_prior_mono c t w ht)

theorem evalStep_skip (s : EvalState) (c : MatchResult)
    (h : s.prior_exact = true) (hc : versionExactHitB c = false) :
    evalStep s c = s := by
  rcases hfv : c.found_version with _ | ⟨_ | ⟨v, vs⟩⟩
  · rcases hev : c.expected_version with _ | e
    · exfalso; simp [versionExactHitB, hfv, hev] at hc
    · simp only [evalStep, hfv, hev]
      rw [if_neg]; simp [h]
  · rcases hev : c.expected_version with _ | e
    · exfalso; simp [versionExactHitB, hfv, hev] at hc
    · simp only [evalStep, hfv, hev]
      rw [if_neg]; simp [h]
  · have hall : ∀ w ∈ v :: vs, c.expected_version ≠ some w := by
      intro w hw
      have := hc
      rw [versionExactHitB] at this
      rw [hfv] at this
      simp only [List.any_eq_false] at this
      simpa using this w hw
    simp only [evalStep, hfv]
    exact evalInner_fold_skip c s (v :: vs) h hall

theorem evalStep_prior_mono (s : EvalState) (c : MatchResult)
    (h : s.prior_exact = true) : (evalStep s c).prior_exact = true := by
  rcases hfv : c.found_version with _ | ⟨_ | ⟨v, vs⟩⟩
  · rcases hev : c.expected_version with _ | e <;>
      simp only [evalStep, hfv, hev] <;> split <;> simp [h]
  · rcases hev : c.expected_version with _ | e <;>
      simp only [evalStep, hfv, hev] <;> split <;> simp [h]
  · simp only [evalStep, hfv]
    exact evalInner_fold_prior_mono c (v :: vs) s h

end SLA

namespace SLA

theorem evalInner_fix (c : MatchResult) (t : EvalState) (w : Str)
    (hp : t.prior_exact = true)
    (he : ¬ c.match_percent > t.best_exact_percent) :
    evalInner c t w = t := by
  unfold evalInner
  by_cases hx : c.expected_version = some w
  · rw [if_pos hx, if_neg he]
  · rw [if_neg hx, if_neg]; simp [hp]

theorem evalInner_fold_fix (c : MatchResult) (ws : List Str) (t : EvalState)
    (hp : t.prior_exact = true)
    (he : ¬ c.match_percent > t.best_exact_percent) :
    ws.foldl (evalInner c) t = t := by
  induction ws with
  | nil => rfl
  | cons w ws ih => simp only [List.foldl_cons, evalInner_fix c t w hp he, ih]

/-- The exact-update record written by both exact branches. -/
def exactUpd (c : MatchResult) : EvalState :=
  { best_percent := c.match_percent, best_exact_percent := c.match_percent,
    best := some c, prior_exact := true }

theorem evalInner_fold_exact (c : MatchResult) (ws : List Str) :
    ∀ t : EvalState, t.prior_exact = false →
      c.match_percent > t.best_exact_percent →
      (∃ w ∈ ws, c.expected_version = some w) →
      ws.foldl (evalInner c) t = exactUpd c := by
  induction ws with
  | nil => intro t _ _ hex; simp at hex
  | cons w ws ih =>
    intro t hp he hex
    by_cases hw : c.expected_version = some w
    · have hstep : evalInner c t w = exactUpd c := by
        unfold evalInner
        rw [if_pos hw, if_pos he]; rfl
      simp only [List.foldl_cons, hstep]
      exact evalInner_fold_fix c ws (exactUpd c) rfl (by simp [exactUpd])
    · rcases hex with ⟨w', hw', hexp⟩
      have hw'ws : w' ∈ ws := by
        rcases List.mem_cons.mp hw' with h1 | h1
        · exact absurd (h1 ▸ hexp) hw
        · exact h1
      have hstep : (evalInner c t w).prior_exact = false ∧
          (evalInner c t w).best_exact_percent = t.best_exact_percent := by
        unfold evalInner
        rw [if_neg hw]
        split <;> simp [hp]
      simp only [List.foldl_cons]
      exact ih (evalInner c t w) hstep.1 (hstep.2 ▸ he) ⟨w', hw'ws, hexp⟩

theorem evalStep_exact (s : EvalState) (c : MatchResult)
    (hp : s.prior_exact = false) (hc : versionExactHitB c = true)
    (he : c.match_percent > s.best_exact_percent) :
    evalStep s c = exactUpd c := by
  rcases hfv : c.found_version with _ | ⟨_ | ⟨v, vs⟩⟩
  · have hev : c.expected_version = none := by
      rw [versionExactHitB, hfv] at hc; simpa using hc
    simp only [evalStep, hfv, hev]
    rw [if_pos he]; rfl
  · have hev : c.expected_version = none := by
      rw [versionExactHitB, hfv] at hc; simpa using hc
    simp only [evalStep, hfv, hev]
    rw [if_pos he]; rfl
  · have hex : ∃ w ∈ v :: vs, c.expected_version = some w := by
      rw [versionExactHitB, hfv] at hc
      simpa using hc
    simp only [evalStep, hfv]
    exact evalInner_fold_exact c (v :: vs) s hp he hex

theorem evalInner_best_cases (c : MatchResult) (t : EvalState) (w : Str) :
    (evalInner c t w).best = t.best ∨ (evalInner c t w).best = some c := by
  unfold evalInner
  split
  · split <;> simp
  · split <;> simp

theorem evalInner_fold_best_cases (c : MatchResult) (ws : List Str) :
    ∀ t : EvalState, (ws.foldl (evalInner c) t).best = t.best ∨
      (ws.foldl (evalInner c) t).best = some c := by
  induction ws with
  | nil => intro t; left; rfl
  | cons w ws ih =>
    intro t
    simp only [List.foldl_cons]
    rcases ih (evalInner c t w) with h | h
    · rcases evalInner_best_cases c t w with h2 | h2
      · left; rw [h, h2]
      · right; rw [h, h2]
    · right; exact h

theorem evalStep_best_cases (s : EvalState) (c : MatchResult) :
    (evalStep s c).best = s.best ∨ (evalStep s c).best = some c := by
  rcases hfv : c.found_version with _ | ⟨_ | ⟨v, vs⟩⟩
  · rcases hev : c.expected_version with _ | e <;>
      simp only [evalStep, hfv, hev] <;> split <;> simp
  · rcases hev : c.expected_version with _ | e <;>
      simp only [evalStep, hfv, hev] <;> split <;> simp
  · simp only [evalStep, hfv]
    exact evalInner_fold_best_cases c (v :: vs) s

theorem evalStep_first (s : EvalState) (c : MatchResult)
    (hbp : s.best_percent = 0) (hbe : s.best_exact_percent = 0)
    (hpr : s.prior_exact = false) (hc : c.match_percent > 0) :
    (evalStep s c).best = some c := by
  rcases hfv : c.found_version with _ | ⟨_ | ⟨v, vs⟩⟩
  · rcases hev : c.expected_version with _ | e <;> simp only [evalStep, hfv, hev]
    · rw [if_pos (hbe ▸ hc)]
    · rw [if_pos ⟨by simp [hpr], hbp ▸ hc⟩]
  · rcases hev : c.expected_version with _ | e <;> simp only [evalStep, hfv, hev]
    · rw [if_pos (hbe ▸ hc)]
    · rw [if_pos ⟨by simp [hpr], hbp ▸ hc⟩]
  · simp only [evalStep, hfv, List.foldl_cons]
    have hfirst : (evalInner c s v).best = some c := by
      unfold evalInner
      split
    
      · rw [if_pos (hbe ▸ hc)]
      · rw [if_pos ⟨by simp [hpr], hbp ▸ hc⟩]
    rcases evalInner_fold_best_cases c vs (evalInner c s v) with h | h
    · rw [h, hfirst]
    · exact h

theorem foldl_evalStep_best_isSome (l : List MatchResult) :
    ∀ s : EvalState, s.best.isSome →
      (l.foldl evalStep s).best.isSome := by
  induction l with
  | nil => intro s h; exact h
  | cons c cs ih =>
    intro s h
    simp only [List.foldl_cons]
    apply ih
    rcases evalStep_best_cases s c with h2 | h2 <;> rw [h2] <;> simp_all

end SLA

namespace SLA

theorem evalInner_fold_nonexact_state (c : MatchResult) (ws : List Str) :
    ∀ t : EvalState, t.prior_exact = false →
      (∀ w ∈ ws, c.expected_version ≠ some w) →
      ((ws.foldl (evalInner c) t).prior_exact = false ∧
       (ws.foldl (evalInner c) t).best_exact_percent = t.best_exact_percent) := by
  induction ws with
  | nil => intro t ht _; exact ⟨ht, rfl⟩
  | cons w ws ih =>
    intro t ht hall
    have hstep : (evalInner c t w).prior_exact = false ∧
        (evalInner c t w).best_exact_percent = t.best_exact_percent := by
      unfold evalInner
      rw [if_neg (hall w (List.mem_cons_self w ws))]
      split <;> simp [ht]
    simp only [List.foldl_cons]
    have := ih (evalInner c t w) hstep.1
      (fun w' hw' => hall w' (List.mem_cons_of_mem w hw'))
    exact ⟨this.1, hstep.2 ▸ this.2⟩

theorem evalStep_nonexact_state (s : EvalState) (c : MatchResult)
    (hp : s.prior_exact = false) (hc : versionExactHitB c = false) :
    (evalStep s c).prior_exact = false ∧
    (evalStep s c).best_exact_percent = s.best_exact_percent := by
  rcases hfv : c.found_version with _ | ⟨_ | ⟨v, vs⟩⟩
  · rcases hev : c.expected_version with _ | e
    · exfalso; simp [versionExactHitB, hfv, hev] at hc
    · simp only [evalStep, hfv, hev]; split <;> simp [hp]
  · rcases hev : c.expected_version with _ | e
    · exfalso; simp [versionExactHitB, hfv, hev] at hc
    · simp only [evalStep, hfv, hev]; split <;> simp [hp]
  · have hall : ∀ w ∈ v :: vs, c.expected_version ≠ some w := by
      intro w hw
      have := hc
      rw [versionExactHitB, hfv] at this
      simp only [List.any_eq_false] at this
      simpa using this w hw
    simp only [evalStep, hfv]
    exact evalInner_fold_nonexact_state c (v :: vs) s hp hall

/-- C3: in `determine_best_fuzzy_match_from_file_data`, once a
version-exact candidate has been accepted (`prior_match_version_was_exact`
is set), a candidate without a version-exact hit never changes the state —
in particular it never replaces the selected best match — regardless of
its match percent; consequently a 60%-scoring version-exact candidate is
selected over a 90%-scoring candidate with no version hit, in either
arrival order. -/
theorem C3_version_exact_dominance :
    (∀ (s : EvalState) (c : MatchResult), s.prior_exact = true →
      versionExactHitB c = false → evalStep s c = s) ∧
    (∀ (s : EvalState) (l : List MatchResult), s.prior_exact = true →
      (∀ c ∈ l, versionExactHitB c = false) → l.foldl evalStep s = s) ∧
    (∀ cE cN : MatchResult, versionExactHitB cE = true →
      versionExactHitB cN = false →
      cE.match_percent = 60 → cN.match_percent = 90 →
      ([cE, cN].foldl evalStep initEvalState).best = some cE ∧
      ([cN, cE].foldl evalStep initEvalState).best = some cE) := by
  refine ⟨evalStep_skip, ?_, ?_⟩
  · intro s l hs hl
    induction l with
    | nil => rfl
    | cons c cs ih =>
      simp only [List.foldl_cons,
        evalStep_skip s c hs (hl c (List.mem_cons_self c cs))]
      exact ih (fun c' hc' => hl c' (List.mem_cons_of_mem c hc'))
  · intro cE cN hE hN h60 h90
    constructor
    · have h1 : evalStep initEvalState cE = exactUpd cE :=
        evalStep_exact initEvalState cE rfl hE (by rw [h60]; norm_num [initEvalState])
      have h2 : evalStep (exactUpd cE) cN = exactUpd cE :=
        evalStep_skip (exactUpd cE) cN rfl hN
      simp only [List.foldl_cons, List.foldl_nil, h1, h2]
      rfl
    · have hst := evalStep_nonexact_state initEvalState cN rfl hN
      have h2 : evalStep (evalStep initEvalState cN) cE = exactUpd cE :=
        evalStep_exact _ cE hst.1 hE
          (by rw [h60, hst.2]; norm_num [initEvalState])
      simp only [List.foldl_cons, List.foldl_nil, h2]
      rfl

/-- Closed instance of `C3_version_exact_dominance` at concrete candidates:
a 60% version-exact match beats a 90% non-exact one in both orders, and a
non-exact candidate cannot displace an accepted exact state. -/
theorem C3_version_exact_dominance_witness :
    (evalStep ⟨60, 60, some ⟨[], 60, 0, 0, some ['2'], some [['2']], none⟩, true⟩
        ⟨[], 90, 0, 0, some ['2'], some [['9']], none⟩ =
      ⟨60, 60, some ⟨[], 60, 0, 0, some ['2'], some [['2']], none⟩, true⟩) ∧
    (([⟨[], 90, 0, 0, some ['2'], some [['9']], none⟩,
       ⟨[], 60, 0, 0, some ['2'], some [['2']], none⟩].foldl evalStep
        initEvalState).best =
      some ⟨[], 60, 0, 0, some ['2'], some [['2']], none⟩) := by
  constructor
  · exact C3_version_exact_dominance.1
      ⟨60, 60, some ⟨[], 60, 0, 0, some ['2'], some [['2']], none⟩, true⟩
      ⟨[], 90, 0, 0, some ['2'], some [['9']], none⟩ rfl (by decide)
  · exact (C3_version_exact_dominance.2.2
      ⟨[], 60, 0, 0, some ['2'], some [['2']], none⟩
      ⟨[], 90, 0, 0, some ['2'], some [['9']], none⟩
      (by decide) (by decide) rfl rfl).2

/-- C10: `determine_best_fuzzy_match_from_file_data` leaves a file with an
empty candidate list entirely untouched; and for a non-empty candidate
list in which every entry has `match_percent > 0` (as the upstream
`> 50.0` keep threshold guarantees), the pass accepts at least one
candidate, so it terminates without dereferencing a missing result and
writes back a non-`None` `fuzzy_license_match`. -/
theorem C10_evaluator_totality :
    (∀ fd : FileData, fd.fuzzy_license_matches = [] →
      determine_best_for_file fd = .ok fd) ∧
    (∀ (fd : FileData) (c : MatchResult) (cs : List MatchResult),
      fd.fuzzy_license_matches = c :: cs →
      (∀ m ∈ fd.fuzzy_license_matches, m.match_percent > 0) →
      ∃ fd', determine_best_for_file fd = .ok fd' ∧
        fd'.fuzzy_license_match ≠ none) := by
  constructor
  · intro fd h
    unfold determine_best_for_file
    rw [if_pos (by simp [h])]
  · intro fd c cs hl hpos
    have hfirst : (evalStep initEvalState c).best = some c :=
      evalStep_first initEvalState c rfl rfl rfl
        (hpos c (by rw [hl]; exact List.mem_cons_self c cs))
    have hsome : ((c :: cs).foldl evalStep initEvalState).best.isSome := by
      simp only [List.foldl_cons]
      exact foldl_evalStep_best_isSome cs (evalStep initEvalState c)
        (by rw [hfirst]; rfl)
    unfold determine_best_for_file
    rw [if_neg (by simp [hl])]
    rw [hl]
    rcases hb : ((c :: cs).foldl evalStep initEvalState).best with _ | b
    · rw [hb] at hsome; simp at hsome
    · simp only [hb]
      exact ⟨_, rfl, by simp⟩

/-- Closed instance of `C10_evaluator_totality`: the empty-candidate file
is untouched, and a one-candidate file with percent 75 gets a selected
best match. -/
theorem C10_evaluator_totality_witness :
    (determine_best_for_file ⟨[], [], none⟩ = .ok ⟨[], [], none⟩) ∧
    (∃ fd', determine_best_for_file
        ⟨[⟨[], 75, 0, 0, none, none, some ['m']⟩], [], none⟩ = .ok fd' ∧
      fd'.fuzzy_license_match ≠ none) := by
  constructor
  · exact C10_evaluator_totality.1 ⟨[], [], none⟩ rfl
  · exact C10_evaluator_totality.2
      ⟨[⟨[], 75, 0, 0, none, none, some ['m']⟩], [], none⟩
      ⟨[], 75, 0, 0, none, none, some ['m']⟩ [] rfl
      (by intro m hm; simp at hm; rw [hm]; norm_num)

end SLA

namespace SLA

/-- A concrete assessment file whose content matches a license pattern and
contains an in-text version cue. -/
def exFileIdx : FileIndex :=
  buildFileIndex
    "blah blah This program is free software version 2 blah".toList 3

/-- A concrete license pattern (normalized before indexing, as the
pipeline does) whose text occurs in `exFileIdx`. -/
def exPatternIdx : PatternIndex :=
  buildPatternIndex "input/license_headers/Test-2.0.txt".toList
    (remove_punctuation_and_normalize_text
      "This program is free software version 2".toList) 3

/-- A concrete file with a cue-free kept match. -/
def exFileIdxNoCue : FileIndex :=
  buildFileIndex "blah blah This program is free software blah".toList 3

/-- A concrete pattern matching `exFileIdxNoCue` without version cues. -/
def exPatternIdxNoCue : PatternIndex :=
  buildPatternIndex "input/license_headers/Test.txt".toList
    (remove_punctuation_and_normalize_text
      "This program is free software".toList) 3

/-- C2 (code bug): the spec says nothing in the matching core raises and
that attaching found versions to a kept match does not raise.  On this
pair the aligner keeps a 100% match whose substring carries the cue
`version 2`, `_extract_versions` returns the list `["2.0"]`-style value
`["2"]`, and `fuzzy_license_search.py:345` hands that *list* to
`utils.normalize_number_string` (annotated `Optional[str]`), whose
`value.strip()` raises `AttributeError`.  The pipeline body therefore
raises instead of resolving to a match. -/
theorem C2_attach_versions_raises :
    best_match_indexed exFileIdx exPatternIdx 3 5 =
      some { matched_substring :=
               "this program is free software version 2".toList,
             match_percent := 100, start_index := 10, end_index := 49 } ∧
    extract_versions_all "this program is free software version 2".toList =
      some [['2']] ∧
    processPair exFileIdx exPatternIdx =
      .error "AttributeError: 'list' object has no attribute 'strip'" := by
  refine ⟨by decide, by decide, by rfl⟩

end SLA

namespace SLA

/-- C4 counterexample: in the prototype matcher `fuzzy_match_in_file`
(fuzzy_match_prototype_with_versioning.py:223) the found version is
extracted from the *whole* file text.  Here the kept match (100% > 50%)
has substring `alpha beta gamma delta` with no version cue at all
(`_extract_version` of the substring is `None`), yet the result's
`found_version` is `99` — a cue lying entirely before the matched region
(start index 11).  This falsifies the claim that a cue outside the
matched region never appears in a kept match's found versions. -/
theorem C4_whole_file_contamination_counterexample :
    fuzzy_match_in_file "alpha beta gamma delta".toList
        "version 99 alpha beta gamma delta".toList =
      some { matched_substring := "alpha beta gamma delta".toList,
             match_percent := 100, start_index := 11, end_index := 33,
             expected_version := none, found_version := some ['9', '9'] } ∧
    extract_version_first "alpha beta gamma delta".toList = none ∧
    extract_versions_all "alpha beta gamma delta".toList = none := by
  refine ⟨by decide, by decide, by decide⟩

/-- C4 amended: in the indexed pipeline
(`fuzzy_match_assessment_files_for_licenses`, line 343) the found-version
extraction runs on the matched substring only, never the whole file: a
kept pair succeeds exactly when the *substring* yields no cue (storing no
found versions — the list case raises, claim C2), and the raising case is
likewise decided by the substring alone.  The prototype
`fuzzy_match_in_file` instead extracts from the whole file text
(see the counterexample). -/
theorem C4_pipeline_versions_from_substring_only :
    (∀ (f : FileIndex) (p : PatternIndex) (r : MatchResult),
      processPair f p = .ok (some r) →
      extract_versions_all r.matched_substring = none ∧
      r.found_version = none) ∧
    (∀ (f : FileIndex) (p : PatternIndex) (e : String),
      processPair f p = .error e →
      ∃ r, best_match_indexed f p 3 5 = some r ∧ r.match_percent > 50 ∧
        extract_versions_all r.matched_substring ≠ none) := by
  constructor
  · intro f p r h
    unfold processPair at h
    cases hbm : best_match_indexed f p 3 5 with
    | none => rw [hbm] at h; simp at h
    | some r0 =>
      rw [hbm] at h
      dsimp only at h
      by_cases hp : r0.match_percent > 50
      · rw [if_pos hp] at h
        cases hev : extract_versions_all r0.matched_substring with
        | some l => rw [hev] at h; simp at h
        | none =>
          rw [hev] at h
          simp only [Except.ok.injEq, Option.some.injEq] at h
          subst h
          exact ⟨hev, rfl⟩
      · rw [if_neg hp] at h; simp at h
  · intro f p e h
    unfold processPair at h
    cases hbm : best_match_indexed f p 3 5 with
    | none => rw [hbm] at h; simp at h
    | some r0 =>
      rw [hbm] at h
      dsimp only at h
      by_cases hp : r0.match_percent > 50
      · rw [if_pos hp] at h
        cases hev : extract_versions_all r0.matched_substring with
        | some l =>
          exact ⟨r0, rfl, hp, by rw [hev]; simp⟩
        | none => rw [hev] at h; simp at h
      · rw [if_neg hp] at h; simp at h

/-- Closed instance of `C4_pipeline_versions_from_substring_only` at the
concrete cue-free pair (ok case) and the cue-carrying pair (error case). -/
theorem C4_pipeline_versions_witness :
    (extract_versions_all
        "this program is free software".toList = none) ∧
    (∃ r, best_match_indexed exFileIdx exPatternIdx 3 5 = some r ∧
      r.match_percent > 50 ∧
      extract_versions_all r.matched_substring ≠ none) := by
  constructor
  · exact (C4_pipeline_versions_from_substring_only.1 exFileIdxNoCue
      exPatternIdxNoCue
      { matched_substring := "this program is free software".toList,
        match_percent := 100, start_index := 10, end_index := 39,
        expected_version := none, found_version := none,
        license_name := some "Test".toList } (by rfl)).1
  · exact C4_pipeline_versions_from_substring_only.2 exFileIdx exPatternIdx
      "AttributeError: 'list' object has no attribute 'strip'" (by rfl)

end SLA

namespace SLA

theorem pct_nonneg (m n : Nat) : 0 ≤ pct m n := by
  rw [pct_eq]
  positivity

theorem pct_le_100 (m n : Nat) (h : m ≤ n) (hn : 0 < n) : pct m n ≤ 100 := by
  rw [pct_eq, div_le_iff₀ (by exact_mod_cast hn)]
  have : (m : ℚ) ≤ (n : ℚ) := by exact_mod_cast h
  nlinarith

theorem findAheadIdx_facts {e : List Str} {b g : Nat} {t : Str} {n : Nat}
    (h : findAheadIdx e b g t = some n) :
    b + 1 ≤ n ∧ n < e.length ∧ e.getD n [] = t := by
  unfold findAheadIdx at h
  rcases Option.map_eq_some'.mp h with ⟨k, hk, hn⟩
  have hmem := List.mem_of_find?_eq_some hk
  have hrange := List.mem_range'_1.mp hmem
  have hp := List.find?_some hk
  simp only [Bool.and_eq_true, decide_eq_true_eq] at hp
  subst hn
  exact ⟨by omega, hp.1, hp.2⟩

theorem alignGo_matches_le (fileToks : List Token) (pat : List Str) (g : Nat) :
    ∀ (fuel fi pj m : Nat) (last : Int),
      (alignGo fileToks pat g fuel fi pj m last).1 ≤ m + (pat.length - pj) := by
  intro fuel
  induction fuel with
  | zero => intro fi pj m last; simp [alignGo]
  | succ fuel ih =>
    intro fi pj m last
    rw [alignGo]
    by_cases hcond : fi < fileToks.length ∧ pj < pat.length
    · rw [if_pos hcond]
      by_cases heq : fnorm fileToks fi = pat.getD pj []
      · rw [if_pos heq]
        have := ih (fi + 1) (pj + 1) (m + 1) (Int.ofNat fi)
        omega
      · rw [if_neg heq]
        rcases hf : findAheadIdx (fileToks.map Token.norm) fi g (pat.getD pj [])
          with _ | nf <;>
        rcases hq : findAheadIdx pat pj g (fnorm fileToks fi) with _ | np <;>
          dsimp only
        · have := ih (fi + 1) (pj + 1) m last
          omega
        · have hnp := (findAheadIdx_facts hq).1
          have := ih fi np m last
          omega
        · have := ih nf pj m last
          omega
        · by_cases hle : nf - fi ≤ np - pj
          · rw [if_pos hle]
            have := ih nf pj m last
            omega
          · rw [if_neg hle]
            have hnp := (findAheadIdx_facts hq).1
            have := ih fi np m last
            omega
    · rw [if_neg hcond]
      simp

theorem align_with_gaps_matches_le (fileToks : List Token) (pat : List Str)
    (fi_start pj_start g : Nat) :
    (align_with_gaps fileToks pat fi_start pj_start g).1 ≤
      pat.length - pj_start := by
  have := alignGo_matches_le fileToks pat g
    (fileToks.length + pat.length + 1) fi_start pj_start 0
    (Int.ofNat fi_start - 1)
  simpa [align_with_gaps] using this

theorem candidateResult_percent_bounds (f : FileIndex) (p : PatternIndex)
    (anchor_size g i j0 : Nat) (hA : 1 ≤ anchor_size)
    (hlen : anchor_size ≤ p.tokens.length) :
    0 ≤ (candidateResult f p anchor_size g i j0).match_percent ∧
    (candidateResult f p anchor_size g i j0).match_percent ≤ 100 := by
  have hextra := align_with_gaps_matches_le f.tokens p.tokens
    (i + anchor_size) (j0 + anchor_size) g
  have hle : anchor_size +
      (align_with_gaps f.tokens p.tokens (i + anchor_size)
        (j0 + anchor_size) g).1 ≤ p.tokens.length := by omega
  unfold candidateResult
  exact ⟨pct_nonneg _ _, pct_le_100 _ _ hle (by omega)⟩

theorem keepBetter_prop {Q : MatchResult → Prop} {b : Option MatchResult}
    {r x : MatchResult} (hb : ∀ y, b = some y → Q y) (hr : Q r)
    (h : keepBetter b r = some x) : Q x := by
  unfold keepBetter at h
  cases hbv : b with
  | none => rw [hbv] at h; injection h with h; exact h ▸ hr
  | some y =>
    rw [hbv] at h
    dsimp only at h
    split at h <;> injection h with h
    · exact h ▸ hr
    · exact h ▸ hb y hbv

end SLA

namespace SLA

theorem foldl_keepBetter_prop {Q : MatchResult → Prop} {α : Type}
    (fc : α → MatchResult) (hQ : ∀ a, Q (fc a)) :
    ∀ (l : List α) (b : Option MatchResult),
      (∀ y, b = some y → Q y) →
      ∀ x, l.foldl (fun acc a => keepBetter acc (fc a)) b = some x → Q x := by
  intro l
  induction l with
  | nil => intro b hb x hx; exact hb x hx
  | cons a as ih =>
    intro b hb x hx
    simp only [List.foldl_cons] at hx
    refine ih (keepBetter b (fc a)) ?_ x hx
    intro y hy
    exact keepBetter_prop hb (hQ a) hy

theorem best_match_indexed_prop {Q : MatchResult → Prop}
    (f : FileIndex) (p : PatternIndex) (anchor_size g : Nat)
    (hQ : ∀ i j0, Q (candidateResult f p anchor_size g i j0)) :
    ∀ x, best_match_indexed f p anchor_size g = some x → Q x := by
  intro x hx
  unfold best_match_indexed at hx
  dsimp only at hx
  split at hx
  · exact absurd hx (by simp)
  · split at hx
    · exact absurd hx (by simp)
    · revert hx
      have main : ∀ (l : List (Anchor × List Nat)) (b : Option MatchResult),
          (∀ y, b = some y → Q y) →
          (l.foldl (fun best kv =>
            kv.2.foldl (fun best i =>
              ((alookup p.anchor_positions kv.1).getD []).foldl
                (fun best j0 =>
                  keepBetter best (candidateResult f p anchor_size g i j0))
                best) best) b) = some x → Q x := by
        intro l
        induction l with
        | nil => intro b hb hx; exact hb x hx
        | cons kv kvs ih =>
          intro b hb hx
          simp only [List.foldl_cons] at hx
          refine ih _ ?_ hx
          have inner : ∀ (is : List Nat) (b' : Option MatchResult),
              (∀ y, b' = some y → Q y) →
              ∀ z, (is.foldl (fun best i =>
                ((alookup p.anchor_positions kv.1).getD []).foldl
                  (fun best j0 =>
                    keepBetter best (candidateResult f p anchor_size g i j0))
                  best) b') = some z → Q z := by
            intro is
            induction is with
            | nil => intro b' hb' z hz; exact hb' z hz
            | cons i is ih2 =>
              intro b' hb' z hz
              simp only [List.foldl_cons] at hz
              refine ih2 _ ?_ z hz
              intro y hy
              exact foldl_keepBetter_prop _ (hQ i) _ b' hb' y hy
          intro y hy
          exact inner kv.2 b hb y hy
      exact main _ none (by intro y hy; cases hy)

/-- C1: every `MatchResult` the indexed aligner retains has
`match_percent ∈ [0, 100]` (the match count never exceeds the pattern
token count), and the pipeline appends a result to a file's
`fuzzy_license_matches` only when its `match_percent` is strictly greater
than 50. -/
theorem C1_percent_bounds_and_keep_threshold :
    (∀ (f : FileIndex) (p : PatternIndex) (anchor_size g : Nat)
        (r : MatchResult), 1 ≤ anchor_size →
      best_match_indexed f p anchor_size g = some r →
      0 ≤ r.match_percent ∧ r.match_percent ≤ 100) ∧
    (∀ (f : FileIndex) (p : PatternIndex) (r : MatchResult),
      processPair f p = .ok (some r) → r.match_percent > 50) := by
  constructor
  · intro f p anchor_size g r hA hr
    by_cases hlen : p.tokens.length < anchor_size
    · exfalso
      unfold best_match_indexed at hr
      rw [if_pos (Or.inr hlen)] at hr
      cases hr
    · exact @best_match_indexed_prop
        (fun r => 0 ≤ r.match_percent ∧ r.match_percent ≤ 100)
        f p anchor_size g
        (fun i j0 => candidateResult_percent_bounds f p anchor_size g i j0
          hA (by omega)) r hr
  · intro f p r h
    unfold processPair at h
    cases hbm : best_match_indexed f p 3 5 with
    | none => rw [hbm] at h; simp at h
    | some r0 =>
      rw [hbm] at h
      dsimp only at h
      by_cases hp : r0.match_percent > 50
      · rw [if_pos hp] at h
        cases hev : extract_versions_all r0.matched_substring with
        | some l => rw [hev] at h; simp at h
        | none =>
          rw [hev] at h
          simp only [Except.ok.injEq, Option.some.injEq] at h
          subst h
          exact hp
      · rw [if_neg hp] at h; simp at h

/-- Closed instance of `C1_percent_bounds_and_keep_threshold` at the
concrete example pair: the retained 100% result is within `[0, 100]`, and
the appended result of the cue-free pair is above 50. -/
theorem C1_percent_bounds_witness :
    (0 ≤ (100 : ℚ) ∧ (100 : ℚ) ≤ 100) ∧
    ({ matched_substring := "this program is free software".toList,
       match_percent := 100, start_index := 10, end_index := 39,
       expected_version := none, found_version := none,
       license_name := some "Test".toList } : MatchResult).match_percent
      > 50 := by
  constructor
  · exact C1_percent_bounds_and_keep_threshold.1 exFileIdx exPatternIdx 3 5
      { matched_substring := "this program is free software version 2".toList,
        match_percent := 100, start_index := 10, end_index := 49 }
      (by decide) (by rfl)
  · exact C1_percent_bounds_and_keep_threshold.2 exFileIdxNoCue
      exPatternIdxNoCue _ (by rfl)

end SLA

namespace SLA

theorem alignGo_fuel_irrel (fileToks : List Token) (pat : List Str) (g : Nat) :
    ∀ (fuel fuel' fi pj m : Nat) (last : Int),
      (fileToks.length - fi) + (pat.length - pj) < fuel →
      (fileToks.length - fi) + (pat.length - pj) < fuel' →
      alignGo fileToks pat g fuel fi pj m last =
        alignGo fileToks pat g fuel' fi pj m last := by
  intro fuel
  induction fuel with
  | zero => intro fuel' fi pj m last h _; exact absurd h (Nat.not_lt_zero _)
  | succ fuel ih =>
    intro fuel' fi pj m last h h'
    cases fuel' with
    | zero => exact absurd h' (Nat.not_lt_zero _)
    | succ fuel' =>
      simp only [alignGo]
      by_cases hcond : fi < fileToks.length ∧ pj < pat.length
      · rw [if_pos hcond, if_pos hcond]
        by_cases heq : fnorm fileToks fi = pat.getD pj []
        · rw [if_pos heq, if_pos heq]
          exact ih fuel' (fi + 1) (pj + 1) (m + 1) (Int.ofNat fi)
            (by omega) (by omega)
        · rw [if_neg heq, if_neg heq]
          rcases hf : findAheadIdx (fileToks.map Token.norm) fi g
              (pat.getD pj []) with _ | nf <;>
          rcases hq : findAheadIdx pat pj g (fnorm fileToks fi) with _ | np <;>
            dsimp only
          · exact ih fuel' (fi + 1) (pj + 1) m last (by omega) (by omega)
          · have hfacts := findAheadIdx_facts hq
            exact ih fuel' fi np m last (by omega) (by omega)
          · have hfacts := findAheadIdx_facts hf
            have hnf2 : nf < fileToks.length := by
              have := hfacts.2.1
              simpa using this
            exact ih fuel' nf pj m last (by omega) (by omega)
          · by_cases hle : nf - fi ≤ np - pj
            · rw [if_pos hle, if_pos hle]
              have hfacts := findAheadIdx_facts hf
              have hnf2 : nf < fileToks.length := by
                have := hfacts.2.1
                simpa using this
              exact ih fuel' nf pj m last (by omega) (by omega)
            · rw [if_neg hle, if_neg hle]
              have hfacts := findAheadIdx_facts hq
              exact ih fuel' fi np m last (by omega) (by omega)
      · rw [if_neg hcond, if_neg hcond]

/-- The gap-tolerant walk from an arbitrary loop state, with exactly
enough fuel; by `alignGo_fuel_irrel` this equals `alignGo` at any
sufficient fuel, and `_align_with_gaps` is the instance at a fresh start
(see `align_with_gaps_eq_alignRun`). -/
def alignRun (fileToks : List Token) (pat : List Str) (g fi pj m : Nat)
    (last : Int) : Nat × Int :=
  alignGo fileToks pat g
    ((fileToks.length - fi) + (pat.length - pj) + 1) fi pj m last

theorem align_with_gaps_eq_alignRun (fileToks : List Token) (pat : List Str)
    (fi_start pj_start g : Nat) :
    align_with_gaps fileToks pat fi_start pj_start g =
      alignRun fileToks pat g fi_start pj_start 0
        (Int.ofNat fi_start - 1) := by
  unfold align_with_gaps alignRun
  exact alignGo_fuel_irrel fileToks pat g _ _ fi_start pj_start 0 _
    (by omega) (by omega)

end SLA

namespace SLA

theorem find?_range'_min {p : Nat → Bool} :
    ∀ {n s k : Nat}, (List.range' s n).find? p = some k →
      ∀ j, s ≤ j → j < k → p j = false := by
  intro n
  induction n with
  | zero => intro s k h; simp at h
  | succ n ih =>
    intro s k h j hsj hjk
    rw [List.range'_succ, List.find?_cons] at h
    cases hp : p s with
    | true =>
      rw [hp] at h
      injection h with h
      omega
    | false =>
      rw [hp] at h
      rcases Nat.eq_or_lt_of_le hsj with heq | hlt
      · exact heq ▸ hp
      · exact ih h j hlt hjk

theorem findAheadIdx_min {e : List Str} {b g : Nat} {t : Str} {n : Nat}
    (h : findAheadIdx e b g t = some n) :
    n ≤ b + g ∧ ∀ j, b < j → j < n → ¬(j < e.length ∧ e.getD j [] = t) := by
  unfold findAheadIdx at h
  rcases Option.map_eq_some'.mp h with ⟨k, hk, hn⟩
  have hmem := List.mem_range'_1.mp (List.mem_of_find?_eq_some hk)
  constructor
  · omega
  · intro j hbj hjn hcl
    have hj : j - b < k := by omega
    have := find?_range'_min hk (j - b) (by omega) hj
    have hjb : b + (j - b) = j := by omega
    rw [hjb] at this
    simp only [Bool.and_eq_false_iff, decide_eq_false_iff_not] at this
    rcases this with h1 | h1
    · exact h1 hcl.1
    · exact h1 hcl.2

theorem findAheadIdx_none {e : List Str} {b g : Nat} {t : Str}
    (h : findAheadIdx e b g t = none) :
    ∀ k, 1 ≤ k → k ≤ g → b + k < e.length → e.getD (b + k) [] ≠ t := by
  intro k h1 h2 hlt ht
  unfold findAheadIdx at h
  rw [Option.map_eq_none'] at h
  have := List.find?_eq_none.mp h k (List.mem_range'_1.mpr ⟨h1, by omega⟩)
  simp only [Bool.and_eq_true, decide_eq_true_eq, not_and] at this
  exact this hlt ht

theorem getD_map_norm (fileToks : List Token) (j : Nat)
    (hj : j < fileToks.length) :
    (fileToks.map Token.norm).getD j [] = fnorm fileToks j := by
  unfold fnorm
  rw [List.getD_eq_getElem?_getD, List.getD_eq_getElem?_getD,
    List.getElem?_map]
  rw [List.getElem?_eq_getElem hj]
  simp

end SLA

namespace SLA

/-- C5: at every mismatch, the gap-tolerant walk `_align_with_gaps`
searches up to `g` tokens ahead in the file stream for the current
pattern token and, independently, up to `g` tokens ahead in the pattern
stream for the current file token — each search returning the *nearest*
such token within the window — then resynchronizes on the side that
found its match in fewer lookahead steps (ties resynchronize on the file
side), and advances both streams by one token when neither side finds a
match within `g` steps. -/
theorem C5_gap_lookahead_resync (fileToks : List Token) (pat : List Str)
    (g fi pj m : Nat) (last : Int) (_hg : 1 ≤ g)
    (hfi : fi < fileToks.length) (hpj : pj < pat.length)
    (hne : fnorm fileToks fi ≠ pat.getD pj []) :
    (∀ n, findAheadIdx (fileToks.map Token.norm) fi g (pat.getD pj []) =
        some n →
      fi + 1 ≤ n ∧ n ≤ fi + g ∧ n < fileToks.length ∧
      fnorm fileToks n = pat.getD pj [] ∧
      ∀ j, fi < j → j < n → fnorm fileToks j ≠ pat.getD pj []) ∧
    (findAheadIdx (fileToks.map Token.norm) fi g (pat.getD pj []) = none →
      ∀ k, 1 ≤ k → k ≤ g → fi + k < fileToks.length →
        fnorm fileToks (fi + k) ≠ pat.getD pj []) ∧
    (∀ n, findAheadIdx pat pj g (fnorm fileToks fi) = some n →
      pj + 1 ≤ n ∧ n ≤ pj + g ∧ n < pat.length ∧
      pat.getD n [] = fnorm fileToks fi ∧
      ∀ j, pj < j → j < n → pat.getD j [] ≠ fnorm fileToks fi) ∧
    (findAheadIdx pat pj g (fnorm fileToks fi) = none →
      ∀ k, 1 ≤ k → k ≤ g → pj + k < pat.length →
        pat.getD (pj + k) [] ≠ fnorm fileToks fi) ∧
    (alignRun fileToks pat g fi pj m last =
      match findAheadIdx (fileToks.map Token.norm) fi g (pat.getD pj []),
            findAheadIdx pat pj g (fnorm fileToks fi) with
      | some nf, some np =>
        if nf - fi ≤ np - pj then alignRun fileToks pat g nf pj m last
        else alignRun fileToks pat g fi np m last
      | some nf, none => alignRun fileToks pat g nf pj m last
      | none, some np => alignRun fileToks pat g fi np m last
      | none, none => alignRun fileToks pat g (fi + 1) (pj + 1) m last) := by
  refine ⟨?_, ?_, ?_, ?_, ?_⟩
  · intro n hn
    have hfacts := findAheadIdx_facts hn
    have hmin := findAheadIdx_min hn
    have hlen : n < fileToks.length := by
      have := hfacts.2.1
      simpa using this
    refine ⟨hfacts.1, hmin.1, hlen, ?_, ?_⟩
    · rw [← getD_map_norm fileToks n hlen]
      exact hfacts.2.2
    · intro j hj1 hj2 hj3
      have hjlen : j < fileToks.length := by omega
      exact hmin.2 j hj1 hj2
        ⟨by simpa using hjlen, by rw [getD_map_norm fileToks j hjlen]; exact hj3⟩
  · intro hn k h1 h2 h3
    have := findAheadIdx_none hn k h1 h2 (by simpa using h3)
    rw [getD_map_norm fileToks (fi + k) h3] at this
    exact this
  · intro n hn
    have hfacts := findAheadIdx_facts hn
    have hmin := findAheadIdx_min hn
    exact ⟨hfacts.1, hmin.1, hfacts.2.1, hfacts.2.2,
      fun j hj1 hj2 hj3 => hmin.2 j hj1 hj2 ⟨by omega, hj3⟩⟩
  · intro hn k h1 h2 h3
    exact findAheadIdx_none hn k h1 h2 h3
  · unfold alignRun
    conv_lhs => rw [alignGo]
    rw [if_pos ⟨hfi, hpj⟩, if_neg hne]
    rcases hf : findAheadIdx (fileToks.map Token.norm) fi g (pat.getD pj [])
      with _ | nf <;>
    rcases hq : findAheadIdx pat pj g (fnorm fileToks fi) with _ | np <;>
      dsimp only
    · exact alignGo_fuel_irrel fileToks pat g
        ((fileToks.length - fi) + (pat.length - pj))
        ((fileToks.length - (fi + 1)) + (pat.length - (pj + 1)) + 1)
        (fi + 1) (pj + 1) m last (by omega) (by omega)
    · have hfacts := findAheadIdx_facts hq
      exact alignGo_fuel_irrel fileToks pat g
        ((fileToks.length - fi) + (pat.length - pj))
        ((fileToks.length - fi) + (pat.length - np) + 1)
        fi np m last (by omega) (by omega)
    · have hfacts := findAheadIdx_facts hf
      have hnf : nf < fileToks.length := by
        have := hfacts.2.1
        simpa using this
      exact alignGo_fuel_irrel fileToks pat g
        ((fileToks.length - fi) + (pat.length - pj))
        ((fileToks.length - nf) + (pat.length - pj) + 1)
        nf pj m last (by omega) (by omega)
    · by_cases hle : nf - fi ≤ np - pj
      · rw [if_pos hle, if_pos hle]
        have hfacts := findAheadIdx_facts hf
        have hnf : nf < fileToks.length := by
          have := hfacts.2.1
          simpa using this
        exact alignGo_fuel_irrel fileToks pat g
          ((fileToks.length - fi) + (pat.length - pj))
          ((fileToks.length - nf) + (pat.length - pj) + 1)
          nf pj m last (by omega) (by omega)
      · rw [if_neg hle, if_neg hle]
        have hfacts := findAheadIdx_facts hq
        exact alignGo_fuel_irrel fileToks pat g
          ((fileToks.length - fi) + (pat.length - pj))
          ((fileToks.length - fi) + (pat.length - np) + 1)
          fi np m last (by omega) (by omega)

end SLA

namespace SLA

/-- Closed instance of `C5_gap_lookahead_resync`: on file `a x b` against
pattern `a b` at the mismatch `x` vs `b`, the file-side lookahead finds
`b` one step ahead, the pattern side finds nothing, and the walk
resynchronizes on the file side. -/
theorem C5_gap_lookahead_resync_witness :
    fnorm (tokenizeSpans "a x b".toList) 1 ≠ [['a'], ['b']].getD 1 [] ∧
    alignRun (tokenizeSpans "a x b".toList) [['a'], ['b']] 5 1 1 0 0 =
      alignRun (tokenizeSpans "a x b".toList) [['a'], ['b']] 5 2 1 0 0 := by
  constructor
  · decide
  · have h := (C5_gap_lookahead_resync (tokenizeSpans "a x b".toList)
      [['a'], ['b']] 5 1 1 0 0 (by decide) (by decide) (by decide)
      (by decide)).2.2.2.2
    rw [h]
    rfl

end SLA

namespace SLA

/-! ## Character toolkit for the idempotence analysis -/

theorem char_toNat_inj {c d : Char} (h : c.toNat = d.toNat) : c = d := by
  apply Char.ext
  apply UInt32.ext
  exact h

theorem toLowerCh_toNat (c : Char) : (toLowerCh c).toNat =
    if 0x41 ≤ c.toNat ∧ c.toNat ≤ 0x5a then c.toNat + 32 else c.toNat := by
  unfold toLowerCh
  split
  · next h =>
    have hv : (c.toNat + 32).isValidChar := Or.inl (by omega)
    rw [Char.ofNat, dif_pos hv]
    rfl
  · rfl

theorem isPyDigit_toLowerCh (c : Char) :
    isPyDigit (toLowerCh c) = isPyDigit c := by
  unfold isPyDigit
  rw [decide_eq_decide, toLowerCh_toNat]
  split <;> omega

theorem isPySpace_toLowerCh (c : Char) :
    isPySpace (toLowerCh c) = isPySpace c := by
  unfold isPySpace
  rw [decide_eq_decide, toLowerCh_toNat]
  split <;> omega

theorem isPyPunct_toLowerCh (c : Char) :
    isPyPunct (toLowerCh c) = isPyPunct c := by
  unfold isPyPunct
  rw [decide_eq_decide, toLowerCh_toNat]
  split <;> omega

theorem toLowerCh_punct_fix (c : Char) (h : isPyPunct (toLowerCh c) = true) :
    toLowerCh c = c := by
  apply char_toNat_inj
  rw [toLowerCh_toNat]
  unfold isPyPunct at h
  rw [toLowerCh_toNat] at h
  rw [decide_eq_true_eq] at h
  split <;> [skip; rfl]
  next hr => rw [if_pos hr] at h; omega

theorem toLowerCh_idem (c : Char) :
    toLowerCh (toLowerCh c) = toLowerCh c := by
  apply char_toNat_inj
  have h1 := toLowerCh_toNat c
  by_cases h : 0x41 ≤ c.toNat ∧ c.toNat ≤ 0x5a
  · rw [if_pos h] at h1
    rw [toLowerCh_toNat, h1, if_neg (by omega)]
  · rw [if_neg h] at h1
    rw [toLowerCh_toNat, h1, if_neg h]

theorem toLowerCh_ascii (c : Char) (h : c.toNat < 128) :
    (toLowerCh c).toNat < 128 := by
  rw [toLowerCh_toNat]
  split <;> omega

theorem isPyDigit_not_punct {c : Char} (h : isPyDigit c = true) :
    isPyPunct c = false := by
  unfold isPyDigit at h
  unfold isPyPunct
  rw [decide_eq_true_eq] at h
  rw [decide_eq_false_iff_not]
  omega

theorem isPyDigit_not_space {c : Char} (h : isPyDigit c = true) :
    isPySpace c = false := by
  unfold isPyDigit at h
  unfold isPySpace
  rw [decide_eq_true_eq] at h
  rw [decide_eq_false_iff_not]
  omega

theorem isPySpace_not_digit {c : Char} (h : isPySpace c = true) :
    isPyDigit c = false := by
  unfold isPySpace at h
  unfold isPyDigit
  rw [decide_eq_true_eq] at h
  rw [decide_eq_false_iff_not]
  omega

theorem ascii_ne_fullwidth_dot {c : Char} (h : c.toNat < 128) : c ≠ '．' := by
  intro he
  rw [he] at h
  exact absurd h (by decide)

end SLA

namespace SLA

/-! ## Structural predicates for normalized text -/

/-- Along a left-to-right traversal (`prev` = the previous character of the
same list), every punctuation character is a decimal dot flanked by
digits. -/
def DotsOk : Option Char → Str → Prop
  | _, [] => True
  | prev, c :: rest =>
    (isPyPunct c = true → c = '.' ∧
      (∃ p, prev = some p ∧ isPyDigit p = true) ∧
      (∃ n r2, rest = n :: r2 ∧ isPyDigit n = true)) ∧
    DotsOk (some c) rest

/-- Along a traversal (`b` = whether the previous character was
whitespace), every whitespace character is a single space not preceded by
whitespace. -/
def SpacedOk : Bool → Str → Prop
  | _, [] => True
  | b, c :: rest =>
    (isPySpace c = true → c = ' ' ∧ b = false) ∧ SpacedOk (isPySpace c) rest

theorem subAmpDot_eq_self : ∀ (s : Str), (∀ c ∈ s, c ≠ '\\') →
    subAmpDot s = s := by
  intro s
  induction s with
  | nil => intro _; rfl
  | cons c rest ih =>
    intro h
    have hc : c ≠ '\\' := h c (List.mem_cons_self _ _)
    have hrest : ∀ x ∈ rest, x ≠ '\\' := fun x hx => h x (List.mem_cons_of_mem _ hx)
    rw [subAmpDot.eq_def]
    split
    · rename_i r heq
      injection heq with h1 _
      exact absurd h1 hc
    · rename_i c2 rest2 hni heq
      injection heq with h1 h2
      subst h1
      subst h2
      rw [ih hrest]
    · rename_i heq
      cases heq

end SLA

namespace SLA

theorem rpkddGo_keep (prev : Option Char) (c : Char) (rest : Str)
    (h : isPyPunct c = false) :
    rpkddGo prev (c :: rest) = c :: rpkddGo (some c) rest := by
  rw [rpkddGo.eq_def]
  dsimp only
  rw [if_pos (by simp [h])]

theorem rpkddGo_dot_keep (p n : Char) (r2 : Str)
    (hp : isPyDigit p = true) (hn : isPyDigit n = true) :
    rpkddGo (some p) ('.' :: n :: r2) = '.' :: rpkddGo (some '.') (n :: r2) := by
  rw [rpkddGo.eq_def]
  dsimp only
  rw [if_neg (by decide), if_pos rfl]
  rw [if_pos (by rw [hp, hn]; rfl)]

theorem rpkddGo_dot_drop (p n : Char) (r2 : Str)
    (hpn : (isPyDigit p && isPyDigit n) = false) :
    rpkddGo (some p) ('.' :: n :: r2) = rpkddGo (some '.') (n :: r2) := by
  rw [rpkddGo.eq_def]
  dsimp only
  rw [if_neg (by decide), if_pos rfl]
  rw [if_neg (by rw [hpn]; simp)]

theorem rpkddGo_dot_none (rest : Str) :
    rpkddGo none ('.' :: rest) = rpkddGo (some '.') rest := by
  rw [rpkddGo.eq_def]
  dsimp only
  rw [if_neg (by decide), if_pos rfl]

theorem rpkddGo_dot_single (prev : Option Char) :
    rpkddGo prev ['.'] = [] := by
  rw [rpkddGo.eq_def]
  dsimp only
  rw [if_neg (by decide), if_pos rfl]
  cases prev <;> rfl

theorem rpkddGo_punct_drop (prev : Option Char) (c : Char) (rest : Str)
    (hpunct : isPyPunct c = true) (hdot : c ≠ '.') :
    rpkddGo prev (c :: rest) = rpkddGo (some c) rest := by
  rw [rpkddGo.eq_def]
  dsimp only
  rw [if_neg (by simp [hpunct]), if_neg hdot]

end SLA

namespace SLA

theorem rpkddGo_eq_self : ∀ (s : Str) (prev : Option Char),
    DotsOk prev s → rpkddGo prev s = s := by
  intro s
  induction s with
  | nil => intro prev _; rfl
  | cons c rest ih =>
    intro prev hd
    obtain ⟨hc, hrest⟩ := hd
    by_cases hp : isPyPunct c = true
    · obtain ⟨hdot, ⟨p, hprev, hpdig⟩, ⟨n, r2, hr2, hndig⟩⟩ := hc hp
      subst hdot
      subst hprev
      subst hr2
      rw [rpkddGo_dot_keep p n r2 hpdig hndig, ih _ hrest]
    · rw [rpkddGo_keep prev c rest (by simpa using hp), ih _ hrest]

theorem rpkddGo_dotsOk : ∀ (s : Str) (prev op : Option Char),
    (∀ p, prev = some p → isPyPunct p = false → op = some p) →
    DotsOk op (rpkddGo prev s) := by
  intro s
  induction s with
  | nil => intro prev op _; trivial
  | cons c rest ih =>
    intro prev op hcompat
    by_cases hp : isPyPunct c = true
    · by_cases hdot : c = '.'
      · subst hdot
        cases hprev : prev with
        | none =>
          rw [rpkddGo_dot_none]
          exact ih (some '.') op (by intro p h1 h2; injection h1 with h1; rw [← h1] at h2; simp [isPyPunct] at h2)
        | some p =>
          cases hrest : rest with
          | nil =>
            rw [rpkddGo_dot_single]
            trivial
          | cons n r2 =>
            subst hrest
            by_cases hpn : (isPyDigit p && isPyDigit n) = true
            · rw [rpkddGo_dot_keep p n r2 (by simp at hpn; exact hpn.1) (by simp at hpn; exact hpn.2)]
              have hpdig : isPyDigit p = true := by simp at hpn; exact hpn.1
              have hndig : isPyDigit n = true := by simp at hpn; exact hpn.2
              constructor
              · intro _
                refine ⟨rfl, ⟨p, ?_, hpdig⟩, ?_⟩
                · rw [hcompat p hprev (isPyDigit_not_punct hpdig)]
                · refine ⟨n, rpkddGo (some n) r2, ?_, hndig⟩
                  rw [rpkddGo_keep (some '.') n r2 (isPyDigit_not_punct hndig)]
              · exact ih (some '.') (some '.')
                  (by intro q h1 h2; injection h1 with h1; rw [← h1] at h2; simp [isPyPunct] at h2)
            · rw [rpkddGo_dot_drop p n r2 (by simpa using hpn)]
              exact ih (some '.') op
                (by intro q h1 h2; injection h1 with h1; rw [← h1] at h2; simp [isPyPunct] at h2)
      · rw [rpkddGo_punct_drop prev c rest hp hdot]
        exact ih (some c) op
          (by intro q h1 h2; injection h1 with h1; rw [← h1] at h2; rw [hp] at h2; cases h2)
    · rw [rpkddGo_keep prev c rest (by simpa using hp)]
      constructor
      · intro hpc; exact absurd hpc hp
      · exact ih (some c) (some c) (by intro q h1 _; exact h1 ▸ rfl)

end SLA

namespace SLA

theorem mem_rpkddGo : ∀ (s : Str) (prev : Option Char) (c : Char),
    c ∈ rpkddGo prev s → c ∈ s := by
  intro s
  induction s with
  | nil => intro prev c h; cases h
  | cons c0 rest ih =>
    intro prev c h
    by_cases hp : isPyPunct c0 = true
    · by_cases hdot : c0 = '.'
      · subst hdot
        cases hprev : prev with
        | none =>
          subst hprev
          rw [rpkddGo_dot_none] at h
          exact List.mem_cons_of_mem _ (ih _ c h)
        | some p =>
          subst hprev
          cases hrest : rest with
          | nil =>
            subst hrest
            rw [rpkddGo_dot_single] at h
            cases h
          | cons n r2 =>
            subst hrest
            by_cases hpn : (isPyDigit p && isPyDigit n) = true
            · rw [rpkddGo_dot_keep p n r2 (by simp at hpn; exact hpn.1)
                (by simp at hpn; exact hpn.2)] at h
              rcases List.mem_cons.mp h with h1 | h1
              · exact h1 ▸ List.mem_cons_self _ _
              · exact List.mem_cons_of_mem _ (ih _ c h1)
            · rw [rpkddGo_dot_drop p n r2 (by simpa using hpn)] at h
              exact List.mem_cons_of_mem _ (ih _ c h)
      · rw [rpkddGo_punct_drop prev c0 rest hp hdot] at h
        exact List.mem_cons_of_mem _ (ih _ c h)
    · rw [rpkddGo_keep prev c0 rest (by simpa using hp)] at h
      rcases List.mem_cons.mp h with h1 | h1
      · exact h1 ▸ List.mem_cons_self _ _
      · exact List.mem_cons_of_mem _ (ih _ c h1)

theorem rpkddGo_punct_mem : ∀ (s : Str) (prev : Option Char) (c : Char),
    c ∈ rpkddGo prev s → isPyPunct c = true → c = '.' := by
  intro s
  induction s with
  | nil => intro prev c h; cases h
  | cons c0 rest ih =>
    intro prev c h hpunct
    by_cases hp : isPyPunct c0 = true
    · by_cases hdot : c0 = '.'
      · subst hdot
        cases hprev : prev with
        | none =>
          subst hprev
          rw [rpkddGo_dot_none] at h
          exact ih _ c h hpunct
        | some p =>
          subst hprev
          cases hrest : rest with
          | nil =>
            subst hrest
            rw [rpkddGo_dot_single] at h
            cases h
          | cons n r2 =>
            subst hrest
            by_cases hpn : (isPyDigit p && isPyDigit n) = true
            · rw [rpkddGo_dot_keep p n r2 (by simp at hpn; exact hpn.1)
                (by simp at hpn; exact hpn.2)] at h
              rcases List.mem_cons.mp h with h1 | h1
              · exact h1
              · exact ih _ c h1 hpunct
            · rw [rpkddGo_dot_drop p n r2 (by simpa using hpn)] at h
              exact ih _ c h hpunct
      · rw [rpkddGo_punct_drop prev c0 rest hp hdot] at h
        exact ih _ c h hpunct
    · rw [rpkddGo_keep prev c0 rest (by simpa using hp)] at h
      rcases List.mem_cons.mp h with h1 | h1
      · exact absurd (h1 ▸ hpunct) (by simpa using hp)
      · exact ih _ c h1 hpunct

theorem mem_collapseWsGo : ∀ (s : Str) (b : Bool) (c : Char),
    c ∈ collapseWsGo b s → c = ' ' ∨ c ∈ s := by
  intro s
  induction s with
  | nil => intro b c h; cases h
  | cons c0 rest ih =>
    intro b c h
    rw [collapseWsGo] at h
    by_cases hs : isPySpace c0 = true
    · rw [if_pos hs] at h
      by_cases hb : b = true
      · rw [if_pos hb] at h
        rcases ih true c h with h1 | h1
        · exact Or.inl h1
        · exact Or.inr (List.mem_cons_of_mem _ h1)
      · rw [if_neg hb] at h
        rcases List.mem_cons.mp h with h1 | h1
        · exact Or.inl h1
        · rcases ih true c h1 with h2 | h2
          · exact Or.inl h2
          · exact Or.inr (List.mem_cons_of_mem _ h2)
    · rw [if_neg hs] at h
      rcases List.mem_cons.mp h with h1 | h1
      · exact Or.inr (h1 ▸ List.mem_cons_self _ _)
      · rcases ih false c h1 with h2 | h2
        · exact Or.inl h2
        · exact Or.inr (List.mem_cons_of_mem _ h2)

theorem mem_pyStrip {s : Str} {c : Char} (h : c ∈ pyStrip s) : c ∈ s := by
  unfold pyStrip at h
  rw [List.mem_reverse] at h
  have h2 := (List.dropWhile_sublist _).mem h
  rw [List.mem_reverse] at h2
  exact (List.dropWhile_sublist _).mem h2

theorem mem_nfkc {s : Str} {c : Char} (h : c ∈ nfkc s) : c ∈ s ∨ c = '.' := by
  unfold nfkc at h
  rcases List.mem_flatMap.mp h with ⟨d, hd, hcd⟩
  unfold nfkcChar at hcd
  by_cases hdot : d = '．'
  · rw [if_pos hdot] at hcd
    simp at hcd
    exact Or.inr hcd
  · rw [if_neg hdot] at hcd
    simp at hcd
    exact Or.inl (hcd ▸ hd)

end SLA

namespace SLA

theorem nfkc_eq_self {s : Str} (h : ∀ c ∈ s, c.toNat < 128) :
    nfkc s = s := by
  unfold nfkc
  induction s with
  | nil => rfl
  | cons c rest ih =>
    rw [List.flatMap_cons]
    rw [show nfkcChar c = [c] from
      if_neg (ascii_ne_fullwidth_dot (h c (List.mem_cons_self _ _)))]
    rw [ih (fun d hd => h d (List.mem_cons_of_mem _ hd))]
    rfl

theorem stripMarks_eq_self {s : Str} (h : ∀ c ∈ s, c.toNat < 128) :
    stripMarks s = s := by
  unfold stripMarks
  rw [List.filter_eq_self]
  intro c hc
  have := h c hc
  unfold isCombiningMark
  simp only [decide_eq_true_eq]
  omega

theorem caseFold_eq_self {s : Str} (h : ∀ c ∈ s, toLowerCh c = c) :
    caseFold s = s := by
  unfold caseFold
  rw [List.map_congr_left h]
  exact List.map_id _

theorem collapseWsGo_eq_self : ∀ (s : Str) (b : Bool),
    SpacedOk b s → collapseWsGo b s = s := by
  intro s
  induction s with
  | nil => intro b _; rfl
  | cons c rest ih =>
    intro b hs
    obtain ⟨hc, hrest⟩ := hs
    rw [collapseWsGo]
    by_cases hsp : isPySpace c = true
    · obtain ⟨hspace, hb⟩ := hc hsp
      subst hspace
      rw [if_pos hsp, hb, if_neg (by simp)]
      rw [ih _ (by rw [show isPySpace ' ' = true from by decide] at hrest
                   exact hrest)]
    · rw [if_neg hsp]
      rw [ih _ (by rw [Bool.of_not_eq_true hsp] at hrest; exact hrest)]

theorem spacedOk_collapseWsGo : ∀ (s : Str) (b : Bool),
    SpacedOk b (collapseWsGo b s) := by
  intro s
  induction s with
  | nil => intro b; trivial
  | cons c rest ih =>
    intro b
    rw [collapseWsGo]
    by_cases hsp : isPySpace c = true
    · rw [if_pos hsp]
      by_cases hb : b = true
      · rw [if_pos hb, hb]
        exact ih true
      · rw [if_neg hb]
        refine ⟨fun _ => ⟨rfl, by simpa using hb⟩, ?_⟩
        have : isPySpace ' ' = true := by decide
        rw [this]
        exact ih true
    · rw [if_neg hsp]
      refine ⟨fun hx => absurd hx hsp, ?_⟩
      rw [Bool.of_not_eq_true hsp]
      exact ih false

theorem spacedOk_dropWhile : ∀ (s : Str) (b : Bool),
    SpacedOk b s → SpacedOk false (s.dropWhile isPySpace) := by
  intro s
  induction s with
  | nil => intro b _; trivial
  | cons c rest ih =>
    intro b hs
    obtain ⟨hc, hrest⟩ := hs
    rw [List.dropWhile_cons]
    by_cases hsp : isPySpace c = true
    · rw [if_pos hsp]
      exact ih _ (hsp ▸ hrest)
    · rw [if_neg hsp]
      exact ⟨fun hx => absurd hx hsp, Bool.of_not_eq_true hsp ▸ hrest⟩

theorem spacedOk_append : ∀ (a t : Str) (b : Bool),
    SpacedOk b (a ++ t) → SpacedOk b a := by
  intro a
  induction a with
  | nil => intro t b _; trivial
  | cons c a' ih =>
    intro t b hs
    obtain ⟨hc, hrest⟩ := hs
    exact ⟨hc, ih t _ hrest⟩

theorem dotsOk_append : ∀ (a t : Str) (op : Option Char),
    (∀ c ∈ t, isPyDigit c = false) → DotsOk op (a ++ t) → DotsOk op a := by
  intro a
  induction a with
  | nil => intro t op _ _; trivial
  | cons c a' ih =>
    intro t op ht hs
    obtain ⟨hc, hrest⟩ := hs
    refine ⟨?_, ih t _ ht hrest⟩
    intro hpunct
    obtain ⟨hdot, hp, ⟨n, r2, hr2, hndig⟩⟩ := hc hpunct
    refine ⟨hdot, hp, ?_⟩
    cases ha' : a' with
    | nil =>
      exfalso
      rw [ha'] at hr2
      simp only [List.append_eq, List.nil_append] at hr2
      have : n ∈ t := hr2 ▸ List.mem_cons_self _ _
      rw [ht n this] at hndig
      cases hndig
    | cons m a'' =>
      rw [ha'] at hr2
      simp only [List.append_eq, List.cons_append] at hr2
      injection hr2 with h1 _
      exact ⟨m, a'', rfl, h1 ▸ hndig⟩

end SLA

namespace SLA

theorem dotsOk_caseFold : ∀ (s : Str) (op : Option Char),
    DotsOk op s → DotsOk (op.map toLowerCh) (caseFold s) := by
  intro s
  induction s with
  | nil => intro op _; trivial
  | cons c rest ih =>
    intro op hs
    obtain ⟨hc, hrest⟩ := hs
    refine ⟨?_, ?_⟩
    · intro hpunct
      rw [isPyPunct_toLowerCh] at hpunct
      obtain ⟨hdot, ⟨p, hop, digp⟩, ⟨n, r2, hr2, dign⟩⟩ := hc hpunct
      subst hdot
      refine ⟨by decide, ⟨toLowerCh p, by rw [hop]; rfl,
        by rw [isPyDigit_toLowerCh]; exact digp⟩, ?_⟩
      refine ⟨toLowerCh n, caseFold r2, ?_, by rw [isPyDigit_toLowerCh]; exact dign⟩
      rw [hr2]
      rfl
    · exact ih (some c) hrest

theorem dotsOk_collapseWsGo : ∀ (s : Str) (b : Bool) (op op' : Option Char),
    DotsOk op s → (∀ p, op = some p → isPyDigit p = true → op' = some p) →
    DotsOk op' (collapseWsGo b s) := by
  intro s
  induction s with
  | nil => intro b op op' _ _; rw [collapseWsGo]; trivial
  | cons c rest ih =>
    intro b op op' hs hcompat
    obtain ⟨hc, hrest⟩ := hs
    rw [collapseWsGo]
    by_cases hsp : isPySpace c = true
    · rw [if_pos hsp]
      by_cases hb : b = true
      · rw [if_pos hb]
        exact ih true (some c) op' hrest
          (fun p h1 h2 => by
            injection h1 with h1
            rw [← h1] at h2
            rw [isPySpace_not_digit hsp] at h2
            cases h2)
      · rw [if_neg hb]
        refine ⟨fun hx => absurd hx (by decide), ?_⟩
        exact ih true (some c) (some ' ') hrest
          (fun p h1 h2 => by
            injection h1 with h1
            rw [← h1] at h2
            rw [isPySpace_not_digit hsp] at h2
            cases h2)
    · rw [if_neg hsp]
      refine ⟨?_, ih false (some c) (some c) hrest (fun p h1 _ => h1 ▸ rfl)⟩
      intro hpunct
      obtain ⟨hdot, ⟨p, hop, digp⟩, ⟨n, r2, hr2, dign⟩⟩ := hc hpunct
      subst hdot
      refine ⟨rfl, ⟨p, hcompat p hop digp, digp⟩, ?_⟩
      subst hr2
      refine ⟨n, collapseWsGo false r2, ?_, dign⟩
      rw [collapseWsGo, if_neg (by rw [isPyDigit_not_space dign]; simp)]

theorem dotsOk_dropWhile : ∀ (s : Str) (op : Option Char),
    DotsOk op s → (∀ p, op = some p → isPyDigit p = false) →
    DotsOk none (s.dropWhile isPySpace) := by
  intro s
  induction s with
  | nil => intro op _ _; trivial
  | cons c rest ih =>
    intro op hs hnd
    obtain ⟨hc, hrest⟩ := hs
    rw [List.dropWhile_cons]
    by_cases hsp : isPySpace c = true
    · rw [if_pos hsp]
      exact ih (some c) hrest
        (fun p h1 => by injection h1 with h1; rw [← h1]; exact isPySpace_not_digit hsp)
    · rw [if_neg hsp]
      refine ⟨?_, hrest⟩
      intro hpunct
      obtain ⟨_, ⟨p, hop, digp⟩, _⟩ := hc hpunct
      rw [hnd p hop] at digp
      cases digp

theorem dropWhile_head_false {p : Char → Bool} :
    ∀ (l : Str) (c : Char) (r : Str), l.dropWhile p = c :: r → p c = false := by
  intro l
  induction l with
  | nil => intro c r h; cases h
  | cons c0 rest ih =>
    intro c r h
    rw [List.dropWhile_cons] at h
    by_cases h0 : p c0 = true
    · rw [if_pos h0] at h
      exact ih c r h
    · rw [if_neg h0] at h
      injection h with h1 _
      rw [← h1]
      exact Bool.of_not_eq_true h0

theorem dropWhile_idem {p : Char → Bool} (l : Str) :
    (l.dropWhile p).dropWhile p = l.dropWhile p := by
  cases hd : l.dropWhile p with
  | nil => rfl
  | cons c r =>
    rw [List.dropWhile_cons, if_neg (by rw [dropWhile_head_false l c r hd]; simp)]

theorem pyStrip_decomp (l : Str) : ∃ t : Str,
    l.dropWhile isPySpace = pyStrip l ++ t ∧ ∀ c ∈ t, isPySpace c = true := by
  refine ⟨((l.dropWhile isPySpace).reverse.takeWhile isPySpace).reverse, ?_, ?_⟩
  · unfold pyStrip
    conv_lhs => rw [← List.reverse_reverse (l.dropWhile isPySpace)]
    conv_lhs => rw [← List.takeWhile_append_dropWhile (p := isPySpace)
      (l := (l.dropWhile isPySpace).reverse)]
    rw [List.reverse_append]
  · intro c hc
    rw [List.mem_reverse] at hc
    exact List.mem_takeWhile_imp hc

theorem pyStrip_idem (l : Str) : pyStrip (pyStrip l) = pyStrip l := by
  obtain ⟨t, hdec, _⟩ := pyStrip_decomp l
  have hfront : (pyStrip l).dropWhile isPySpace = pyStrip l := by
    cases hy : pyStrip l with
    | nil => rfl
    | cons c r =>
      have hA : l.dropWhile isPySpace = c :: (r ++ t) := by
        rw [hdec, hy]
        rfl
      rw [List.dropWhile_cons, if_neg (by rw [dropWhile_head_false l c _ hA]; simp)]
  have hback : (pyStrip l).reverse.dropWhile isPySpace = (pyStrip l).reverse := by
    unfold pyStrip
    rw [List.reverse_reverse]
    exact dropWhile_idem _
  calc pyStrip (pyStrip l)
      = (((pyStrip l).dropWhile isPySpace).reverse.dropWhile
          isPySpace).reverse := rfl
    _ = ((pyStrip l).reverse.dropWhile isPySpace).reverse := by rw [hfront]
    _ = ((pyStrip l).reverse).reverse := by rw [hback]
    _ = pyStrip l := List.reverse_reverse _

end SLA

namespace SLA

theorem subAmpDot_cons (c0 : Char) (rest : List Char)
    (hne : ∀ (r : List Char), c0 = '\\' → rest = '&' :: '.' :: r → False) :
    subAmpDot (c0 :: rest) = c0 :: subAmpDot rest := by
  rw [subAmpDot.eq_def]
  split
  · rename_i r heq
    injection heq with h1 h2
    exact (hne r h1 h2).elim
  · rename_i c2 rest2 hni heq
    injection heq with h1 h2
    subst h1
    subst h2
    rfl
  · rename_i heq
    cases heq

theorem mem_subAmpDot : ∀ (s : Str) (c : Char), c ∈ subAmpDot s →
    c ∈ s ∨ c = '.' := by
  intro s
  induction s using subAmpDot.induct with
  | case1 rest ih =>
    intro c hc
    rw [show subAmpDot ('\\' :: '&' :: '.' :: rest) = '.' :: subAmpDot rest
      from rfl] at hc
    rcases List.mem_cons.mp hc with h | h
    · exact Or.inr h
    · rcases ih c h with h2 | h2
      · exact Or.inl (by simp [h2])
      · exact Or.inr h2
  | case2 c0 rest hne ih =>
    intro c hc
    rw [subAmpDot_cons c0 rest hne] at hc
    rcases List.mem_cons.mp hc with h | h
    · exact Or.inl (by simp [h])
    · rcases ih c h with h2 | h2
      · exact Or.inl (List.mem_cons_of_mem _ h2)
      · exact Or.inr h2
  | case3 =>
    intro c hc
    cases hc

/-- Characters of the punctuation-stripping stage's output of an ASCII
input are ASCII. -/
theorem rpkdd_ascii {s : Str} (h : ∀ c ∈ s, c.toNat < 128) :
    ∀ c ∈ remove_punctuation_keep_decimal_dots s, c.toNat < 128 := by
  intro c hc
  unfold remove_punctuation_keep_decimal_dots at hc
  have h1 := mem_rpkddGo (subAmpDot s) none c hc
  rcases mem_subAmpDot s c h1 with h2 | h2
  · exact h c h2
  · rw [h2]; decide

end SLA

namespace SLA

/-- On ASCII input the NFKC and mark-stripping stages are the identity, so
the normalizer reduces to strip ∘ collapse ∘ casefold ∘ punctuation-strip. -/
theorem norm_eq_of_ascii {s : Str} (h : ∀ c ∈ s, c.toNat < 128) :
    remove_punctuation_and_normalize_text s =
      pyStrip (collapseWs (caseFold (remove_punctuation_keep_decimal_dots s))) := by
  unfold remove_punctuation_and_normalize_text
  rw [nfkc_eq_self (rpkdd_ascii h), stripMarks_eq_self (rpkdd_ascii h)]

/-- Every character of the ASCII-normalized output is a space or the
lowercase image of a character of the punctuation-stripped text. -/
theorem mem_norm_of_ascii {s : Str} (h : ∀ c ∈ s, c.toNat < 128) :
    ∀ c ∈ remove_punctuation_and_normalize_text s, c = ' ' ∨
      ∃ d ∈ remove_punctuation_keep_decimal_dots s, c = toLowerCh d := by
  intro c hc
  rw [norm_eq_of_ascii h] at hc
  have h1 := mem_pyStrip hc
  rcases mem_collapseWsGo _ false c h1 with h2 | h2
  · exact Or.inl h2
  · rcases List.mem_map.mp h2 with ⟨d, hd, hcd⟩
    exact Or.inr ⟨d, hd, hcd.symm⟩

theorem norm_dotsOk {s : Str} (h : ∀ c ∈ s, c.toNat < 128) :
    DotsOk none (remove_punctuation_and_normalize_text s) := by
  have hz : DotsOk none (remove_punctuation_keep_decimal_dots s) :=
    rpkddGo_dotsOk (subAmpDot s) none none (by intro p hp; cases hp)
  have hcf : DotsOk none (caseFold (remove_punctuation_keep_decimal_dots s)) := by
    have := dotsOk_caseFold _ none hz
    simpa using this
  have hw : DotsOk none
      (collapseWs (caseFold (remove_punctuation_keep_decimal_dots s))) :=
    dotsOk_collapseWsGo _ false none none hcf (by intro p hp; cases hp)
  have hdw := dotsOk_dropWhile _ none hw (by intro p hp; cases hp)
  obtain ⟨t, hdec, ht⟩ := pyStrip_decomp
    (collapseWs (caseFold (remove_punctuation_keep_decimal_dots s)))
  rw [hdec] at hdw
  rw [norm_eq_of_ascii h]
  exact dotsOk_append _ t none (fun c hc => isPySpace_not_digit (ht c hc)) hdw

theorem norm_spacedOk {s : Str} (h : ∀ c ∈ s, c.toNat < 128) :
    SpacedOk false (remove_punctuation_and_normalize_text s) := by
  have hw : SpacedOk false
      (collapseWs (caseFold (remove_punctuation_keep_decimal_dots s))) :=
    spacedOk_collapseWsGo _ false
  have hdw := spacedOk_dropWhile _ false hw
  obtain ⟨t, hdec, ht⟩ := pyStrip_decomp
    (collapseWs (caseFold (remove_punctuation_keep_decimal_dots s)))
  rw [hdec] at hdw
  rw [norm_eq_of_ascii h]
  exact spacedOk_append _ t false hdw

theorem norm_lower {s : Str} (h : ∀ c ∈ s, c.toNat < 128) :
    ∀ c ∈ remove_punctuation_and_normalize_text s, toLowerCh c = c := by
  intro c hc
  rcases mem_norm_of_ascii h c hc with h1 | ⟨d, _, hcd⟩
  · rw [h1]; decide
  · rw [hcd]; exact toLowerCh_idem d

theorem norm_punct {s : Str} (h : ∀ c ∈ s, c.toNat < 128) :
    ∀ c ∈ remove_punctuation_and_normalize_text s,
      isPyPunct c = true → c = '.' := by
  intro c hc hpunct
  rcases mem_norm_of_ascii h c hc with h1 | ⟨d, hd, hcd⟩
  · rw [h1] at hpunct; cases hpunct
  · have hfix : toLowerCh d = d := toLowerCh_punct_fix d (hcd ▸ hpunct)
    have hcd2 : c = d := by rw [hcd, hfix]
    subst hcd2
    exact rpkddGo_punct_mem (subAmpDot s) none c hd hpunct

theorem norm_ascii {s : Str} (h : ∀ c ∈ s, c.toNat < 128) :
    ∀ c ∈ remove_punctuation_and_normalize_text s, c.toNat < 128 := by
  intro c hc
  rcases mem_norm_of_ascii h c hc with h1 | ⟨d, hd, hcd⟩
  · rw [h1]; decide
  · rw [hcd]
    exact toLowerCh_ascii d (rpkdd_ascii h d hd)

/-- C7 amended: the normalizer is idempotent on inputs all of whose
characters are NFKC-fixed, in particular on every ASCII input.  (It is not
idempotent in general: see the counterexample with the compatibility full
stop U+FF0E.) -/
theorem C7_normalizer_idempotent_on_ascii (s : Str)
    (h : ∀ c ∈ s, c.toNat < 128) :
    remove_punctuation_and_normalize_text
        (remove_punctuation_and_normalize_text s) =
      remove_punctuation_and_normalize_text s := by
  have hy_ascii := norm_ascii h
  have hrp : remove_punctuation_keep_decimal_dots
      (remove_punctuation_and_normalize_text s) =
      remove_punctuation_and_normalize_text s := by
    unfold remove_punctuation_keep_decimal_dots
    rw [subAmpDot_eq_self _ (by
      intro c hc hbs
      have := norm_punct h c hc (by rw [hbs]; decide)
      rw [hbs] at this
      cases this)]
    exact rpkddGo_eq_self _ none (norm_dotsOk h)
  calc remove_punctuation_and_normalize_text
          (remove_punctuation_and_normalize_text s)
      = pyStrip (collapseWs (caseFold (remove_punctuation_keep_decimal_dots
          (remove_punctuation_and_normalize_text s)))) :=
        norm_eq_of_ascii hy_ascii
    _ = pyStrip (collapseWs (caseFold
          (remove_punctuation_and_normalize_text s))) := by rw [hrp]
    _ = pyStrip (collapseWs (remove_punctuation_and_normalize_text s)) := by
        rw [caseFold_eq_self (norm_lower h)]
    _ = pyStrip (remove_punctuation_and_normalize_text s) := by
        rw [show collapseWs (remove_punctuation_and_normalize_text s) =
          remove_punctuation_and_normalize_text s from
          collapseWsGo_eq_self _ false (norm_spacedOk h)]
    _ = remove_punctuation_and_normalize_text s := by
        rw [norm_eq_of_ascii h]
        exact pyStrip_idem _

end SLA

namespace SLA

/-- C7 counterexample: the normalizer is not idempotent on inputs whose
NFKC normalization introduces punctuation.  For `a．b` (with U+FF0E
FULLWIDTH FULL STOP), the first pass keeps the fullwidth stop through the
punctuation-stripping stage (it is not ASCII punctuation) and NFKC then
turns it into `.`, giving `a.b`; the second pass strips that dot (its
neighbours are not digits), giving `ab` ≠ `a.b`. -/
theorem C7_nfkc_punct_counterexample :
    remove_punctuation_and_normalize_text "a．b".toList = "a.b".toList ∧
    remove_punctuation_and_normalize_text
        (remove_punctuation_and_normalize_text "a．b".toList) = "ab".toList ∧
    remove_punctuation_and_normalize_text
        (remove_punctuation_and_normalize_text "a．b".toList) ≠
      remove_punctuation_and_normalize_text "a．b".toList := by
  exact ⟨by decide, by decide, by decide⟩

/-- Closed instance of `C7_normalizer_idempotent_on_ascii` at a concrete
ASCII input with punctuation, uppercase, a version number and messy
whitespace. -/
theorem C7_normalizer_idempotent_witness :
    remove_punctuation_and_normalize_text
        (remove_punctuation_and_normalize_text
          "  Hello,  WORLD! v2.0. test \\&. 3\\&.5 ".toList) =
      remove_punctuation_and_normalize_text
        "  Hello,  WORLD! v2.0. test \\&. 3\\&.5 ".toList :=
  C7_normalizer_idempotent_on_ascii _ (by decide)

end SLA

namespace SLA

/-- The multiset-overlap of two token lists:
`Σ_w min(count in a, count in b)`, as the card of the multiset
intersection.  This is the mathematical value the pruning loop of
`fuzzy_match_prepared` computes (`overlapCount_eq_specOverlap`). -/
def specOverlap (a b : List Str) : Nat :=
  Multiset.card ((a : Multiset Str) ∩ (b : Multiset Str))

theorem inter_add_right_eq (X Y : Multiset Str) (c : Str) :
    (X + {c}) ∩ (Y + {c}) = X ∩ Y + {c} := by
  ext w
  simp only [Multiset.count_inter, Multiset.count_add, Multiset.count_singleton]
  split <;> omega

theorem specOverlap_append_eq (a b : List Str) (c : Str) :
    specOverlap (a ++ [c]) (b ++ [c]) = specOverlap a b + 1 := by
  unfold specOverlap
  rw [show ((a ++ [c] : List Str) : Multiset Str) = (a : Multiset Str) + {c}
      by rw [← Multiset.coe_add]; rfl]
  rw [show ((b ++ [c] : List Str) : Multiset Str) = (b : Multiset Str) + {c}
      by rw [← Multiset.coe_add]; rfl]
  rw [inter_add_right_eq]
  simp

theorem specOverlap_mono_left (a b : List Str) (c : Str) :
    specOverlap a b ≤ specOverlap (a ++ [c]) b := by
  unfold specOverlap
  apply Multiset.card_le_card
  rw [Multiset.le_iff_count]
  intro w
  simp only [Multiset.count_inter]
  have : ((a ++ [c] : List Str) : Multiset Str) = (a : Multiset Str) + {c} := by
    rw [← Multiset.coe_add]; rfl
  rw [this]
  simp only [Multiset.count_add, Multiset.count_singleton]
  split <;> omega

theorem specOverlap_mono_right (a b : List Str) (c : Str) :
    specOverlap a b ≤ specOverlap a (b ++ [c]) := by
  unfold specOverlap
  apply Multiset.card_le_card
  rw [Multiset.le_iff_count]
  intro w
  simp only [Multiset.count_inter]
  have : ((b ++ [c] : List Str) : Multiset Str) = (b : Multiset Str) + {c} := by
    rw [← Multiset.coe_add]; rfl
  rw [this]
  simp only [Multiset.count_add, Multiset.count_singleton]
  split <;> omega

end SLA

namespace SLA

theorem headD_eq_getD (l : List Nat) (d : Nat) : l.headD d = l.getD 0 d := by
  cases l <;> rfl

theorem drop_one_getD (l : List Nat) (k d : Nat) :
    (l.drop 1).getD k d = l.getD (k + 1) d := by
  cases l with
  | nil => simp
  | cons c t => simp [List.getD_cons_succ]

theorem replicate_getD_zero (n j : Nat) :
    (List.replicate n (0 : Nat)).getD j 0 = 0 := by
  induction n generalizing j with
  | zero => simp
  | succ n ih =>
    cases j with
    | zero => rfl
    | succ j => simp [List.replicate_succ, List.getD_cons_succ, ih j]

theorem lcsRowGo_le (ai : Str) (x : List Str) :
    ∀ (bs bdone : List Str) (prev : List Nat) (left : Nat),
      (∀ k, prev.getD k 0 ≤ specOverlap x (bdone ++ bs.take k)) →
      left ≤ specOverlap (x ++ [ai]) bdone →
      ∀ k, (lcsRowGo ai bs prev left).getD k 0 ≤
        specOverlap (x ++ [ai]) (bdone ++ bs.take (k + 1)) := by
  intro bs
  induction bs with
  | nil =>
    intro bdone prev left _ _ k
    simp [lcsRowGo]
  | cons b bs' ih =>
    intro bdone prev left hprev hleft k
    have hup : (prev.drop 1).headD 0 ≤ specOverlap x (bdone ++ [b]) := by
      rw [headD_eq_getD, drop_one_getD]
      have := hprev 1
      simpa using this
    have hdiag : prev.headD 0 ≤ specOverlap x bdone := by
      rw [headD_eq_getD]
      have := hprev 0
      simpa using this
    have hcur : (if ai = b then prev.headD 0 + 1
        else max ((prev.drop 1).headD 0) left) ≤
        specOverlap (x ++ [ai]) (bdone ++ [b]) := by
      by_cases hab : ai = b
      · rw [if_pos hab, hab]
        rw [specOverlap_append_eq]
        omega
      · rw [if_neg hab]
        apply max_le
        · exact le_trans hup (specOverlap_mono_left _ _ _)
        · exact le_trans hleft (specOverlap_mono_right _ _ _)
    rw [lcsRowGo]
    cases k with
    | zero =>
      simpa using hcur
    | succ k =>
      rw [List.getD_cons_succ]
      have hprev' : ∀ k2, (prev.drop 1).getD k2 0 ≤
          specOverlap x ((bdone ++ [b]) ++ bs'.take k2) := by
        intro k2
        rw [drop_one_getD]
        have := hprev (k2 + 1)
        simpa [List.append_assoc] using this
      have := ih (bdone ++ [b]) (prev.drop 1) _ hprev' hcur k
      simpa [List.append_assoc] using this

theorem lcsRow_le (ai : Str) (x : List Str) (b : List Str)
    (prevRow : List Nat)
    (hprev : ∀ j, prevRow.getD j 0 ≤ specOverlap x (b.take j)) :
    ∀ j, (lcsRow ai b prevRow).getD j 0 ≤
      specOverlap (x ++ [ai]) (b.take j) := by
  intro j
  unfold lcsRow
  cases j with
  | zero => simp
  | succ j =>
    rw [List.getD_cons_succ]
    have := lcsRowGo_le ai x b [] prevRow 0
      (by intro k; simpa using hprev k) (by simp) j
    simpa using this

theorem lcsTableGo_le (b : List Str) :
    ∀ (as x : List Str) (prevRow : List Nat),
      (∀ j, prevRow.getD j 0 ≤ specOverlap x (b.take j)) →
      ∀ i j, ((lcsTableGo b as prevRow).getD i []).getD j 0 ≤
        specOverlap (x ++ as.take (i + 1)) (b.take j) := by
  intro as
  induction as with
  | nil =>
    intro x prevRow _ i j
    simp [lcsTableGo]
  | cons ai as' ih =>
    intro x prevRow hprev i j
    rw [lcsTableGo]
    cases i with
    | zero =>
      have := lcsRow_le ai x b prevRow hprev j
      simpa using this
    | succ i =>
      rw [List.getD_cons_succ]
      have := ih (x ++ [ai]) (lcsRow ai b prevRow)
        (lcsRow_le ai x b prevRow hprev) i j
      simpa [List.append_assoc] using this

theorem lcs_len_le_specOverlap (a b : List Str) :
    (lcs_dp_with_indices a b).1 ≤ specOverlap a b := by
  unfold lcs_dp_with_indices
  dsimp only
  unfold dpGet lcsTable
  cases a with
  | nil =>
    simp [replicate_getD_zero]
  | cons a0 as =>
    rw [show (a0 :: as).length = as.length + 1 from rfl, List.getD_cons_succ]
    have := lcsTableGo_le b (a0 :: as) [] (List.replicate (b.length + 1) 0)
      (by intro j; simp [replicate_getD_zero]) as.length b.length
    simpa using this

end SLA

namespace SLA

/-- Meaning of the backtracking state at `(i, j)`: the collected pair
list is a strictly decreasing chain below `(i, j)` whose coordinates
index equal words of `a` and `b`. -/
def PairsDec (a b : List Str) : Nat → Nat → List (Nat × Nat) → Prop
  | _, _, [] => True
  | i, j, (p, q) :: rest =>
    p < i ∧ q < j ∧ a.getD p [] = b.getD q [] ∧ PairsDec a b p q rest

theorem pairsDec_mono (a b : List Str) :
    ∀ (l : List (Nat × Nat)) (i j i2 j2 : Nat), i ≤ i2 → j ≤ j2 →
      PairsDec a b i j l → PairsDec a b i2 j2 l := by
  intro l
  cases l with
  | nil => intro i j i2 j2 _ _ _; trivial
  | cons pq rest =>
    obtain ⟨p, q⟩ := pq
    intro i j i2 j2 hi hj h
    obtain ⟨h1, h2, h3, h4⟩ := h
    exact ⟨lt_of_lt_of_le h1 hi, lt_of_lt_of_le h2 hj, h3, h4⟩

theorem lcsBackGo_pairsDec (a b : List Str) (table : List (List Nat)) :
    ∀ fuel i j, PairsDec a b i j (lcsBackGo a b table fuel i j) := by
  intro fuel
  induction fuel with
  | zero => intro i j; exact trivial
  | succ fuel ih =>
    intro i j
    match i, j with
    | 0, j => exact trivial
    | i' + 1, 0 => exact trivial
    | i' + 1, j' + 1 =>
      show PairsDec a b (i' + 1) (j' + 1)
        (if a.getD i' [] = b.getD j' [] then
          (i', j') :: lcsBackGo a b table fuel i' j'
        else if dpGet table i' (j' + 1) ≥ dpGet table (i' + 1) j' then
          lcsBackGo a b table fuel i' (j' + 1)
        else lcsBackGo a b table fuel (i' + 1) j')
      by_cases hab : a.getD i' [] = b.getD j' []
      · rw [if_pos hab]
        exact ⟨Nat.lt_succ_self _, Nat.lt_succ_self _, hab, ih i' j'⟩
      · rw [if_neg hab]
        by_cases hge : dpGet table i' (j' + 1) ≥ dpGet table (i' + 1) j'
        · rw [if_pos hge]
          exact pairsDec_mono a b _ i' (j' + 1) (i' + 1) (j' + 1)
            (Nat.le_succ _) le_rfl (ih i' (j' + 1))
        · rw [if_neg hge]
          exact pairsDec_mono a b _ (i' + 1) j' (i' + 1) (j' + 1)
            le_rfl (Nat.le_succ _) (ih (i' + 1) j')

theorem take_succ_getD (l : List Str) (p : Nat) (hp : p < l.length) :
    l.take (p + 1) = l.take p ++ [l.getD p []] := by
  rw [List.take_succ, List.getElem?_eq_getElem hp,
    List.getD_eq_getElem l [] hp]
  rfl

theorem take_le_take (l : List Str) (m n : Nat) (h : m ≤ n) :
    ((l.take m : List Str) : Multiset Str) ≤
      ((l.take n : List Str) : Multiset Str) := by
  rw [Multiset.coe_le]
  apply List.Sublist.subperm
  rw [show l.take m = (l.take n).take m by
    rw [List.take_take, min_eq_left h]]
  exact List.take_sublist _ _

theorem pairsDec_words_le (a b : List Str) :
    ∀ (l : List (Nat × Nat)) (i j : Nat), i ≤ a.length → j ≤ b.length →
      PairsDec a b i j l →
      ((l.map (fun p => a.getD p.1 []) : List Str) : Multiset Str) ≤
        ((a.take i : List Str) : Multiset Str) ∩
          ((b.take j : List Str) : Multiset Str) := by
  intro l
  induction l with
  | nil => intro i j _ _ _; simp
  | cons pq rest ih =>
    obtain ⟨p, q⟩ := pq
    intro i j hi hj h
    obtain ⟨hp, hq, heq, hrest⟩ := h
    have hpa : p < a.length := lt_of_lt_of_le hp hi
    have hqb : q < b.length := lt_of_lt_of_le hq hj
    have hrest' := ih p q (le_of_lt hpa) (le_of_lt hqb) hrest
    have hwA : ((a.take p : List Str) : Multiset Str) + {a.getD p []} ≤
        ((a.take i : List Str) : Multiset Str) := by
      rw [show ((a.take p : List Str) : Multiset Str) + {a.getD p []} =
          ((a.take p ++ [a.getD p []] : List Str) : Multiset Str) by
        rw [← Multiset.coe_add]; rfl]
      rw [← take_succ_getD a p hpa]
      exact take_le_take a (p + 1) i hp
    have hwB : ((b.take q : List Str) : Multiset Str) + {a.getD p []} ≤
        ((b.take j : List Str) : Multiset Str) := by
      rw [heq]
      rw [show ((b.take q : List Str) : Multiset Str) + {b.getD q []} =
          ((b.take q ++ [b.getD q []] : List Str) : Multiset Str) by
        rw [← Multiset.coe_add]; rfl]
      rw [← take_succ_getD b q hqb]
      exact take_le_take b (q + 1) j hq
    show ((a.getD p [] :: rest.map (fun p => a.getD p.1 []) : List Str) :
        Multiset Str) ≤ _
    rw [show ((a.getD p [] :: rest.map (fun p => a.getD p.1 []) : List Str) :
        Multiset Str) =
        {a.getD p []} + ((rest.map (fun p => a.getD p.1 []) : List Str) :
          Multiset Str) by rw [Multiset.singleton_add]; rfl]
    apply Multiset.le_inter
    · calc {a.getD p []} +
          ((rest.map (fun p => a.getD p.1 []) : List Str) : Multiset Str)
          ≤ {a.getD p []} + ((a.take p : List Str) : Multiset Str) ∩
              ((b.take q : List Str) : Multiset Str) :=
            add_le_add_left hrest' _
        _ ≤ {a.getD p []} + ((a.take p : List Str) : Multiset Str) :=
            add_le_add_left (Multiset.inter_le_left _ _) _
        _ = ((a.take p : List Str) : Multiset Str) + {a.getD p []} :=
            add_comm _ _
        _ ≤ ((a.take i : List Str) : Multiset Str) := hwA
    · calc {a.getD p []} +
          ((rest.map (fun p => a.getD p.1 []) : List Str) : Multiset Str)
          ≤ {a.getD p []} + ((a.take p : List Str) : Multiset Str) ∩
              ((b.take q : List Str) : Multiset Str) :=
            add_le_add_left hrest' _
        _ ≤ {a.getD p []} + ((b.take q : List Str) : Multiset Str) :=
            add_le_add_left (Multiset.inter_le_right _ _) _
        _ = ((b.take q : List Str) : Multiset Str) + {a.getD p []} :=
            add_comm _ _
        _ ≤ ((b.take j : List Str) : Multiset Str) := hwB

theorem lcsBackGo_length_le (a b : List Str) (table : List (List Nat))
    (fuel : Nat) :
    (lcsBackGo a b table fuel a.length b.length).length ≤
      specOverlap a b := by
  have h := pairsDec_words_le a b
    (lcsBackGo a b table fuel a.length b.length) a.length b.length
    le_rfl le_rfl (lcsBackGo_pairsDec a b table fuel a.length b.length)
  have hcard := Multiset.card_le_card h
  simpa [specOverlap, List.take_length] using hcard

theorem select_run_length_le (pairs : List (Nat × Nat)) :
    (select_longest_contiguous_run pairs).length ≤ pairs.length := by
  unfold select_longest_contiguous_run
  cases pairs with
  | nil => simp
  | cons p rest =>
    exact ((List.take_sublist _ _).trans (List.drop_sublist _ _)).length_le

end SLA

namespace SLA

/-- Looking a word up in the Counter built from `ys` gives its
occurrence count. -/
theorem countLookup_counterAdd (m : List (Str × Nat)) (y w : Str) :
    countLookup (counterAdd m y) w =
      countLookup m w + (if y = w then 1 else 0) := by
  induction m with
  | nil =>
    by_cases h : y = w
    · subst h; simp [counterAdd, countLookup]
    · simp [counterAdd, countLookup, h]
  | cons kv rest ih =>
    obtain ⟨k, n⟩ := kv
    by_cases hk : k = y
    · subst hk
      by_cases hw : k = w
      · subst hw; simp [counterAdd, countLookup]
      · simp [counterAdd, countLookup, hw]
    · rw [show counterAdd ((k, n) :: rest) y =
          (k, n) :: counterAdd rest y by simp [counterAdd, hk]]
      by_cases hw : k = w
      · subst hw
        have hyw : ¬ y = k := fun h => hk h.symm
        simp [countLookup, hyw]
      · simp [countLookup, hw, ih]

theorem countLookup_foldl (w : Str) :
    ∀ (ys : List Str) (m : List (Str × Nat)),
      countLookup (ys.foldl counterAdd m) w =
        countLookup m w + ys.count w := by
  intro ys
  induction ys with
  | nil => intro m; simp
  | cons y ys ih =>
    intro m
    rw [List.foldl_cons, ih, countLookup_counterAdd]
    by_cases h : y = w
    · subst h; simp [List.count_cons_self]; omega
    · rw [List.count_cons_of_ne (fun hc => h hc.symm)]
      simp [h]

theorem countLookup_counter (ys : List Str) (w : Str) :
    countLookup (counter ys) w = ys.count w := by
  unfold counter
  rw [countLookup_foldl]
  simp [countLookup]

end SLA

namespace SLA

theorem overlapCount_foldl_sum (ft : List (Str × Nat)) :
    ∀ (fp : List (Str × Nat)) (acc : Nat),
      fp.foldl (fun acc kv =>
        let cTxt := countLookup ft kv.1
        if cTxt ≠ 0 then acc + (if cTxt < kv.2 then cTxt else kv.2)
        else acc) acc
      = acc + (fp.map (fun kv => min (countLookup ft kv.1) kv.2)).sum := by
  intro fp
  induction fp with
  | nil => intro acc; simp
  | cons kv rest ih =>
    intro acc
    rw [List.foldl_cons, ih]
    simp only [List.map_cons, List.sum_cons]
    have hstep : (let cTxt := countLookup ft kv.1
        if cTxt ≠ 0 then acc + (if cTxt < kv.2 then cTxt else kv.2)
        else acc) = acc + min (countLookup ft kv.1) kv.2 := by
      dsimp only
      split_ifs <;> omega
    rw [hstep]
    omega

theorem overlapCount_eq_sum (fp ft : List (Str × Nat)) :
    overlapCount fp ft =
      (fp.map (fun kv => min (countLookup ft kv.1) kv.2)).sum := by
  unfold overlapCount
  rw [overlapCount_foldl_sum]
  simp

theorem sum_counterAdd (ft : List (Str × Nat)) (x : Str) :
    ∀ (m : List (Str × Nat)),
      ((counterAdd m x).map
          (fun kv => min (countLookup ft kv.1) kv.2)).sum
          + min (countLookup ft x) (countLookup m x)
        = (m.map (fun kv => min (countLookup ft kv.1) kv.2)).sum
          + min (countLookup ft x) (countLookup m x + 1) := by
  intro m
  induction m with
  | nil => simp [counterAdd, countLookup]
  | cons kv rest ih =>
    obtain ⟨k, n⟩ := kv
    by_cases hk : k = x
    · subst hk
      simp only [counterAdd, countLookup, eq_self_iff_true, if_true,
        List.map_cons, List.sum_cons]
      omega
    · simp only [counterAdd, if_neg hk, countLookup, List.map_cons,
        List.sum_cons]
      omega

theorem inter_add_single (X Y : Multiset Str) (x : Str) :
    (X + {x}) ∩ Y = X ∩ Y +
      (if X.count x < Y.count x then ({x} : Multiset Str) else 0) := by
  ext w
  by_cases hw : w = x
  · subst hw
    simp only [Multiset.count_inter, Multiset.count_add,
      Multiset.count_singleton, if_pos rfl, apply_ite (Multiset.count w),
      Multiset.count_zero]
    split_ifs <;> omega
  · simp only [Multiset.count_inter, Multiset.count_add,
      Multiset.count_singleton, if_neg hw, apply_ite (Multiset.count w),
      Multiset.count_zero]
    split_ifs <;> omega

theorem coe_count_eq_listCount (x : Str) (xs : List Str) :
    Multiset.count x (xs : Multiset Str) = List.count x xs := by
  induction xs with
  | nil => rfl
  | cons c t ih =>
    rw [show ((c :: t : List Str) : Multiset Str) = c ::ₘ (t : Multiset Str)
      from rfl]
    rw [Multiset.count_cons, ih, List.count_cons]
    congr 1
    by_cases h : c = x
    · subst h; simp
    · have h1 : ¬ x = c := fun hh => h hh.symm
      simp [h, h1]

theorem specOverlap_append_one (xs ys : List Str) (x : Str) :
    specOverlap (xs ++ [x]) ys = specOverlap xs ys +
      (if List.count x xs < List.count x ys then 1 else 0) := by
  unfold specOverlap
  rw [show ((xs ++ [x] : List Str) : Multiset Str) =
      (xs : Multiset Str) + {x} by rw [← Multiset.coe_add]; rfl]
  rw [inter_add_single]
  rcases lt_or_ge (List.count x xs) (List.count x ys) with h | h
  · have h' : Multiset.count x (xs : Multiset Str) <
        Multiset.count x (ys : Multiset Str) := by
      rw [coe_count_eq_listCount, coe_count_eq_listCount]; exact h
    rw [if_pos h', if_pos h, Multiset.card_add, Multiset.card_singleton]
  · have hn : ¬ List.count x xs < List.count x ys := by omega
    have h' : ¬ Multiset.count x (xs : Multiset Str) <
        Multiset.count x (ys : Multiset Str) := by
      rw [coe_count_eq_listCount, coe_count_eq_listCount]; exact hn
    rw [if_neg h', if_neg hn]
    simp

theorem overlapCount_counter_eq (xs ys : List Str) :
    overlapCount (counter xs) (counter ys) = specOverlap xs ys := by
  induction xs using List.reverseRecOn with
  | nil => simp [overlapCount, counter, specOverlap]
  | append_singleton xs x ih =>
    have hc : counter (xs ++ [x]) = counterAdd (counter xs) x := by
      unfold counter; rw [List.foldl_append]; rfl
    rw [hc, overlapCount_eq_sum, specOverlap_append_one]
    rw [overlapCount_eq_sum] at ih
    have hsum := sum_counterAdd (counter ys) x (counter xs)
    have hcy := countLookup_counter ys x
    have hcx := countLookup_counter xs x
    rw [hcy, hcx] at hsum
    rw [ih] at hsum
    by_cases h : List.count x xs < List.count x ys
    · rw [if_pos h]
      have h1 : min (List.count x ys) (List.count x xs) =
          List.count x xs := by omega
      have h2 : min (List.count x ys) (List.count x xs + 1) =
          List.count x xs + 1 := by omega
      omega
    · rw [if_neg h]
      have h1 : min (List.count x ys) (List.count x xs) =
          List.count x ys := by omega
      have h2 : min (List.count x ys) (List.count x xs + 1) =
          List.count x ys := by omega
      omega

end SLA

namespace SLA

theorem pct_mono (a b m : Nat) (h : a ≤ b) : pct a m ≤ pct b m := by
  rw [pct_eq, pct_eq]
  rcases Nat.eq_zero_or_pos m with hm | hm
  · subst hm; simp
  · have hq : (0 : ℚ) < m := by exact_mod_cast hm
    have ha : (a : ℚ) * 100 ≤ (b : ℚ) * 100 := by
      have : (a : ℚ) ≤ b := by exact_mod_cast h
      nlinarith
    exact div_le_div_of_nonneg_right ha (le_of_lt hq)

/-- Any percent produced by the shared LCS logic is bounded by the
multiset-overlap percent of the two token sequences: the strong branch
uses the LCS length (bounded through the DP table), the weak branch a
contiguous slice of the backtracked alignment (bounded through the
decreasing matched-pairs chain). -/
theorem lcsCore_percent_le (patToks txtToks : List Token)
    (patSeq txtSeq : List Str) (q : ℚ × Str × Nat × Nat)
    (h : lcsCore patToks txtToks patSeq txtSeq = some q) :
    q.1 ≤ pct (specOverlap patSeq txtSeq) patToks.length := by
  unfold lcsCore at h
  set r := lcs_dp_with_indices patSeq txtSeq with hr
  dsimp only at h
  split at h
  · exact absurd h (by simp)
  · rename_i hguard
    set m := patToks.length with hm
    by_cases hstrong : pct r.1 m ≥ 80
    · rw [if_pos hstrong] at h
      dsimp only at h
      split at h
      · exact absurd h (by simp)
      · rw [Option.some_inj] at h
        subst h
        exact pct_mono _ _ _ (by rw [hr]; exact lcs_len_le_specOverlap _ _)
    · rw [if_neg hstrong] at h
      by_cases hcont : (select_longest_contiguous_run r.2).isEmpty
      · rw [if_pos hcont] at h
        exact absurd h (by simp)
      · rw [if_neg hcont] at h
        split at h
        · exact absurd h (by simp)
        · rename_i percent idxs heq
          rw [Option.some_inj, Prod.ext_iff] at heq
          obtain ⟨h1, h2⟩ := heq
          dsimp only at h1 h2
          split at h
          · exact absurd h (by simp)
          · rw [Option.some_inj] at h
            subst h
            dsimp only
            rw [← h1]
            apply pct_mono
            have hlen : (select_longest_contiguous_run r.2).length ≤
                r.2.length := select_run_length_le _
            have hback : r.2.length ≤ specOverlap patSeq txtSeq := by
              rw [hr]
              unfold lcs_dp_with_indices
              dsimp only
              rw [List.length_reverse]
              exact lcsBackGo_length_le _ _ _ _
            omega

end SLA

namespace SLA

/-- The prune never loses a keepable match: a result of the unpruned
prototype matcher with percent at least 50 is returned unchanged by the
pruned matcher on the prepared texts. -/
theorem prepared_keeps_kept (p t : Str) (r : PMatchResult)
    (h : fuzzy_match_in_file p t = some r) (h50 : 50 ≤ r.match_percent) :
    fuzzy_match_prepared (prepare_text p) (prepare_text t) = some r := by
  unfold fuzzy_match_in_file at h
  split at h
  · exact absurd h (by simp)
  · rename_i hg1
    dsimp only at h
    split at h
    · exact absurd h (by simp)
    · rename_i hg2
      rw [Option.map_eq_some'] at h
      obtain ⟨q, hq, hfq⟩ := h
      have hdom := lcsCore_percent_le (tokenizeSpans p) (tokenizeSpans t)
        ((tokenizeSpans p).map Token.norm) ((tokenizeSpans t).map Token.norm)
        q hq
      have hr1 : r.match_percent = q.1 := by rw [← hfq]
      unfold fuzzy_match_prepared
      rw [if_neg (show ¬ ((prepare_text p).tokens.isEmpty ∨
        (prepare_text t).tokens.isEmpty) from hg2)]
      dsimp only [prepare_text]
      rw [overlapCount_counter_eq]
      rw [if_neg (not_lt.mpr (le_trans (hr1 ▸ h50) hdom))]
      rw [hq, Option.map_some']
      rw [← hfq]

end SLA

namespace SLA

/-- Claim C8: the pruned matcher `fuzzy_match_prepared` returns `none`
whenever the multiset-overlap upper-bound percent (the overlap count of
the two token Counters over the pattern token count, times 100) is below
50; and the prune is sound with respect to the unpruned matcher: the
pruning loop computes exactly the multiset overlap of the normalized
token sequences, that overlap bounds from above every match percent the
shared LCS logic can produce (strong or weak branch), and consequently
every result of the unpruned matcher `fuzzy_match_in_file` with match
percent at least 50 is returned unchanged by `fuzzy_match_prepared` on
the prepared texts. -/
theorem C8_prune_soundness :
    (∀ pattern text : PreparedText,
      pct (overlapCount pattern.freq text.freq) pattern.tokens.length < 50 →
      fuzzy_match_prepared pattern text = none) ∧
    (∀ xs ys : List Str,
      overlapCount (counter xs) (counter ys) = specOverlap xs ys) ∧
    (∀ (patToks txtToks : List Token) (patSeq txtSeq : List Str)
      (q : ℚ × Str × Nat × Nat),
      lcsCore patToks txtToks patSeq txtSeq = some q →
      q.1 ≤ pct (specOverlap patSeq txtSeq) patToks.length) ∧
    (∀ (p t : Str) (r : PMatchResult),
      fuzzy_match_in_file p t = some r → 50 ≤ r.match_percent →
      fuzzy_match_prepared (prepare_text p) (prepare_text t) = some r) := by
  refine ⟨?_, overlapCount_counter_eq, lcsCore_percent_le,
    prepared_keeps_kept⟩
  intro pattern text h
  unfold fuzzy_match_prepared
  split
  · rfl
  · dsimp only
    rw [if_pos h]

/-- Concrete check of claim C8: the prune discards a pattern sharing no
token with the text, and a 100% unpruned match on identical short texts
is preserved by the pruned matcher. -/
theorem C8_prune_soundness_witness :
    fuzzy_match_prepared (prepare_text "aa bb cc dd".toList)
        (prepare_text "zz".toList) = none ∧
    fuzzy_match_prepared (prepare_text "aa bb".toList)
        (prepare_text "aa bb".toList) = some
      { matched_substring := "aa bb".toList, match_percent := 100,
        start_index := 0, end_index := 5 } :=
  ⟨C8_prune_soundness.1 _ _ (by decide),
   C8_prune_soundness.2.2.2 _ _ _ (by decide) (by decide)⟩

end SLA

namespace SLA

/-- Splits `p :: l` into its first maximal contiguous run (both indices
increasing by exactly 1 at each step) and the remaining runs.  This is
the run decomposition named by the spec's description of
`_select_longest_contiguous_run`. -/
def splitGo (p : Nat × Nat) : List (Nat × Nat) →
    List (Nat × Nat) × List (List (Nat × Nat))
  | [] => ([p], [])
  | q :: rest =>
    let s := splitGo q rest
    if succStep p q then (p :: s.1, s.2) else ([p], s.1 :: s.2)

/-- The maximal contiguous runs of an alignment, in order. -/
def runsOf : List (Nat × Nat) → List (List (Nat × Nat))
  | [] => []
  | p :: rest => (splitGo p rest).1 :: (splitGo p rest).2

/-- First run of maximal length: a later run only displaces the current
best when strictly longer. -/
def pickLongest (rs : List (List (Nat × Nat))) : List (Nat × Nat) :=
  rs.foldl (fun best r => if r.length > best.length then r else best) []

/-- Functional counterpart of `selLoop` carrying the current run and the
best run as lists instead of index triples. -/
def pickGo (cur best : List (Nat × Nat)) (prev : Nat × Nat) :
    List (Nat × Nat) → List (Nat × Nat)
  | [] => if cur.length > best.length then cur else best
  | q :: rest =>
    if succStep prev q then pickGo (cur ++ [q]) best q rest
    else if cur.length > best.length then pickGo [q] cur q rest
    else pickGo [q] best q rest

theorem splitGo_fst_cons (p : Nat × Nat) (l : List (Nat × Nat)) :
    ∃ t, (splitGo p l).1 = p :: t := by
  cases l with
  | nil => exact ⟨[], rfl⟩
  | cons q rest =>
    by_cases h : succStep p q
    · exact ⟨(splitGo q rest).1, by simp [splitGo, h]⟩
    · exact ⟨[], by simp [splitGo, h]⟩

theorem splitGo_chain (l : List (Nat × Nat)) :
    ∀ p, List.Chain' (fun a b => succStep a b = true) (splitGo p l).1 ∧
      ∀ r ∈ (splitGo p l).2,
        List.Chain' (fun a b => succStep a b = true) r := by
  induction l with
  | nil => intro p; exact ⟨List.chain'_singleton p, by simp [splitGo]⟩
  | cons q rest ih =>
    intro p
    obtain ⟨hc, hr⟩ := ih q
    by_cases h : succStep p q
    · refine ⟨?_, by simpa [splitGo, h] using hr⟩
      rw [show (splitGo p (q :: rest)).1 = p :: (splitGo q rest).1 by
        simp [splitGo, h]]
      obtain ⟨t, ht⟩ := splitGo_fst_cons q rest
      rw [ht]
      rw [ht] at hc
      exact List.chain'_cons.mpr ⟨h, hc⟩
    · refine ⟨by simp [splitGo, h], ?_⟩
      intro r hrm
      rw [show (splitGo p (q :: rest)).2 =
        (splitGo q rest).1 :: (splitGo q rest).2 by simp [splitGo, h]] at hrm
      rcases List.mem_cons.mp hrm with hrm | hrm
      · rw [hrm]; exact hc
      · exact hr r hrm

theorem splitGo_flatten (l : List (Nat × Nat)) :
    ∀ p, (splitGo p l).1 ++ ((splitGo p l).2).flatten = p :: l := by
  induction l with
  | nil => intro p; rfl
  | cons q rest ih =>
    intro p
    by_cases h : succStep p q
    · simp only [splitGo, if_pos h]
      rw [List.cons_append, ih q]
    · simp only [splitGo, if_neg h]
      simp only [List.flatten_cons, List.singleton_append, List.cons_append,
        List.nil_append]
      rw [ih q]

theorem runsOf_chain (pairs : List (Nat × Nat)) :
    ∀ r ∈ runsOf pairs, List.Chain' (fun a b => succStep a b = true) r := by
  cases pairs with
  | nil => simp [runsOf]
  | cons p rest =>
    intro r hr
    rw [runsOf] at hr
    rcases List.mem_cons.mp hr with hr | hr
    · rw [hr]; exact (splitGo_chain rest p).1
    · exact (splitGo_chain rest p).2 r hr

theorem runsOf_flatten (pairs : List (Nat × Nat)) :
    (runsOf pairs).flatten = pairs := by
  cases pairs with
  | nil => rfl
  | cons p rest =>
    rw [runsOf, List.flatten_cons]
    exact splitGo_flatten rest p

theorem foldPick_ge (rs : List (List (Nat × Nat))) :
    ∀ b, b.length ≤ (rs.foldl
        (fun best r => if r.length > best.length then r else best) b).length ∧
      ∀ r ∈ rs, r.length ≤ (rs.foldl
        (fun best r => if r.length > best.length then r else best) b).length := by
  induction rs with
  | nil => intro b; exact ⟨le_rfl, by simp⟩
  | cons r rs ih =>
    intro b
    rw [List.foldl_cons]
    obtain ⟨h1, h2⟩ := ih (if r.length > b.length then r else b)
    have hb : b.length ≤ (if r.length > b.length then r else b).length := by
      split <;> omega
    have hrl : r.length ≤ (if r.length > b.length then r else b).length := by
      split <;> omega
    refine ⟨le_trans hb h1, ?_⟩
    intro r' hr'
    rcases List.mem_cons.mp hr' with hr' | hr'
    · subst hr'; exact le_trans hrl h1
    · exact h2 r' hr'

theorem foldPick_mem (rs : List (List (Nat × Nat))) :
    ∀ b, rs.foldl (fun best r => if r.length > best.length then r else best) b
        = b ∨
      rs.foldl (fun best r => if r.length > best.length then r else best) b
        ∈ rs := by
  induction rs with
  | nil => intro b; exact Or.inl rfl
  | cons r rs ih =>
    intro b
    rw [List.foldl_cons]
    rcases ih (if r.length > b.length then r else b) with h | h
    · rw [h]
      by_cases hc : r.length > b.length
      · exact Or.inr (by rw [if_pos hc]; exact List.mem_cons_self r rs)
      · exact Or.inl (by rw [if_neg hc])
    · exact Or.inr (List.mem_cons_of_mem r h)

end SLA

namespace SLA

theorem pickGo_splitGo :
    ∀ (rest : List (Nat × Nat)) (prev : Nat × Nat)
      (c best : List (Nat × Nat)),
      pickGo (c ++ [prev]) best prev rest =
        ((c ++ (splitGo prev rest).1) :: (splitGo prev rest).2).foldl
          (fun b r => if r.length > b.length then r else b) best := by
  intro rest
  induction rest with
  | nil =>
    intro prev c best
    rfl
  | cons q rest ih =>
    intro prev c best
    by_cases hss : succStep prev q
    · rw [show pickGo (c ++ [prev]) best prev (q :: rest) =
          pickGo ((c ++ [prev]) ++ [q]) best q rest by
        rw [pickGo, if_pos hss]]
      rw [ih q (c ++ [prev]) best]
      simp only [splitGo, if_pos hss]
      rw [show c ++ prev :: (splitGo q rest).1 =
        (c ++ [prev]) ++ (splitGo q rest).1 by simp]
    · rw [show pickGo (c ++ [prev]) best prev (q :: rest) =
          (if (c ++ [prev]).length > best.length then
            pickGo [q] (c ++ [prev]) q rest
          else pickGo [q] best q rest) by
        rw [pickGo, if_neg hss]]
      simp only [splitGo, if_neg hss]
      rw [List.foldl_cons]
      by_cases hlen : (c ++ [prev]).length > best.length
      · rw [if_pos hlen, if_pos hlen]
        have := ih q [] (c ++ [prev])
        simpa using this
      · rw [if_neg hlen, if_neg hlen]
        have := ih q [] best
        simpa using this

/-- The slice `pairs[s : e + 1]` selected by an index pair. -/
def sliceOf (P : List (Nat × Nat)) (se : Nat × Nat) : List (Nat × Nat) :=
  (P.drop se.1).take (se.2 + 1 - se.1)

theorem selLoop_slice (P : List (Nat × Nat)) :
    ∀ (rest : List (Nat × Nat)) (prev : Nat × Nat) (i start bs be bl : Nat),
      P.drop i = rest → i ≤ P.length → start < i → bs ≤ be → be < i →
      bl = be + 1 - bs →
      sliceOf P (selLoop prev i start bs be bl rest) =
        pickGo ((P.drop start).take (i - start))
          ((P.drop bs).take (be + 1 - bs)) prev rest := by
  intro rest
  induction rest with
  | nil =>
    intro prev i start bs be bl hP hiP hstart hbs hbe hbl
    have hcur : ((P.drop start).take (i - start)).length = i - start := by
      rw [List.length_take, List.length_drop]; omega
    have hbest : ((P.drop bs).take (be + 1 - bs)).length = be + 1 - bs := by
      rw [List.length_take, List.length_drop]; omega
    dsimp only [selLoop, pickGo]
    rw [hcur, hbest]
    subst hbl
    by_cases hgt : i - start > be + 1 - bs
    · rw [if_pos hgt, if_pos hgt]
      dsimp only [sliceOf]
      rw [show i - 1 + 1 - start = i - start by omega]
    · rw [if_neg hgt, if_neg hgt]
      rfl
  | cons q rest ih =>
    intro prev i start bs be bl hP hiP hstart hbs hbe hbl
    have hi1 : i < P.length := by
      have hlen := congrArg List.length hP
      rw [List.length_drop] at hlen
      simp only [List.length_cons] at hlen
      omega
    have hq : P.drop (i + 1) = rest := by
      have h2 := congrArg (List.drop 1) hP
      rw [List.drop_drop] at h2
      simpa using h2
    have hPi : P[i]? = some q := by
      have h0 := List.getElem?_drop P i 0
      rw [hP] at h0
      simpa using h0.symm
    dsimp only [selLoop, pickGo]
    by_cases hss : succStep prev q
    · rw [if_pos hss, if_pos hss]
      have hext : (P.drop start).take (i + 1 - start) =
          (P.drop start).take (i - start) ++ [q] := by
        rw [show i + 1 - start = (i - start) + 1 by omega, List.take_succ]
        rw [List.getElem?_drop, show start + (i - start) = i by omega, hPi]
        rfl
      rw [← hext]
      exact ih q (i + 1) start bs be bl hq (by omega) (by omega) hbs
        (by omega) hbl
    · rw [if_neg hss, if_neg hss]
      have hcur : ((P.drop start).take (i - start)).length = i - start := by
        rw [List.length_take, List.length_drop]; omega
      have hbest : ((P.drop bs).take (be + 1 - bs)).length = be + 1 - bs := by
        rw [List.length_take, List.length_drop]; omega
      rw [hcur, hbest]
      subst hbl
      have htake1 : (P.drop i).take 1 = [q] := by rw [hP]; rfl
      by_cases hgt : i - start > be + 1 - bs
      · rw [if_pos hgt, if_pos hgt]
        have h1 := ih q (i + 1) i start (i - 1) (i - start) hq (by omega)
          (by omega) (by omega) (by omega) (by omega)
        rw [show i + 1 - i = 1 by omega, htake1,
          show i - 1 + 1 - start = i - start by omega] at h1
        exact h1
      · rw [if_neg hgt, if_neg hgt]
        have h1 := ih q (i + 1) i bs be (be + 1 - bs) hq (by omega)
          (by omega) hbs (by omega) rfl
        rw [show i + 1 - i = 1 by omega, htake1] at h1
        exact h1

end SLA

namespace SLA

/-- The imperative scan of `_select_longest_contiguous_run` returns the
first maximal contiguous run of the pair list. -/
theorem select_eq_pickLongest (pairs : List (Nat × Nat)) :
    select_longest_contiguous_run pairs = pickLongest (runsOf pairs) := by
  cases pairs with
  | nil => rfl
  | cons p rest =>
    have hsel := selLoop_slice (p :: rest) rest p 1 0 0 0 1 rfl
      (by simp) (by omega) le_rfl (by omega) rfl
    have hone : (((p :: rest).drop 0).take (1 - 0)) = [p] := rfl
    rw [hone] at hsel
    obtain ⟨t, ht⟩ := splitGo_fst_cons p rest
    have hf1 : (if (splitGo p rest).1.length >
        ([p] : List (Nat × Nat)).length then (splitGo p rest).1 else [p]) =
        (splitGo p rest).1 := by
      rw [ht]
      cases t with
      | nil => simp
      | cons a t2 =>
        have hl : ((p :: a :: t2) : List (Nat × Nat)).length >
            ([p] : List (Nat × Nat)).length := by simp
        rw [if_pos hl]
    have hf0 : (if (splitGo p rest).1.length >
        ([] : List (Nat × Nat)).length then (splitGo p rest).1 else []) =
        (splitGo p rest).1 := by
      rw [ht]; simp
    have hpg := pickGo_splitGo rest p [] [p]
    simp only [List.nil_append] at hpg
    calc select_longest_contiguous_run (p :: rest)
        = sliceOf (p :: rest) (selLoop p 1 0 0 0 1 rest) := rfl
      _ = pickGo [p] [p] p rest := hsel
      _ = ((splitGo p rest).1 :: (splitGo p rest).2).foldl
            (fun b r => if r.length > b.length then r else b) [p] := hpg
      _ = (splitGo p rest).2.foldl
            (fun b r => if r.length > b.length then r else b)
            (splitGo p rest).1 := by rw [List.foldl_cons, hf1]
      _ = ((splitGo p rest).1 :: (splitGo p rest).2).foldl
            (fun b r => if r.length > b.length then r else b) [] := by
          rw [List.foldl_cons, hf0]
      _ = pickLongest (runsOf (p :: rest)) := rfl

end SLA

namespace SLA

theorem pickLongest_mem_or_nil (rs : List (List (Nat × Nat))) :
    pickLongest rs = [] ∨ pickLongest rs ∈ rs := foldPick_mem rs []

theorem pickLongest_max (rs : List (List (Nat × Nat))) :
    ∀ r ∈ rs, r.length ≤ (pickLongest rs).length := (foldPick_ge rs []).2

/-- Claim C9: for a nonzero LCS, the strong branch (LCS percent at least
80) reports the full LCS percent and builds the substring from all
LCS-aligned file tokens (sorted, deduplicated, possibly non-contiguous);
the weak branch (below 80) reports the length of the first longest
contiguous run of the alignment — a run being a block of pairs in which
both indices increase by exactly 1 at each step — over the pattern token
count, and builds the substring from that block's file tokens only. -/
theorem C9_strong_weak_branches (patToks txtToks : List Token)
    (patSeq txtSeq : List Str) (q : ℚ × Str × Nat × Nat)
    (h : lcsCore patToks txtToks patSeq txtSeq = some q) :
    (80 ≤ pct (lcs_dp_with_indices patSeq txtSeq).1 patToks.length →
      q.1 = pct (lcs_dp_with_indices patSeq txtSeq).1 patToks.length ∧
      q.2.1 = List.intercalate [' ']
        ((List.insertionSort (· ≤ ·)
          (((lcs_dp_with_indices patSeq txtSeq).2.map Prod.snd).dedup)).map
          (fun i => (txtToks.getD i default).raw))) ∧
    (pct (lcs_dp_with_indices patSeq txtSeq).1 patToks.length < 80 →
      select_longest_contiguous_run (lcs_dp_with_indices patSeq txtSeq).2 =
        pickLongest (runsOf (lcs_dp_with_indices patSeq txtSeq).2) ∧
      q.1 = pct
        (pickLongest (runsOf (lcs_dp_with_indices patSeq txtSeq).2)).length
        patToks.length ∧
      q.2.1 = List.intercalate [' ']
        (((pickLongest (runsOf (lcs_dp_with_indices patSeq txtSeq).2)).map
          Prod.snd).map (fun i => (txtToks.getD i default).raw)) ∧
      List.Chain' (fun a b => succStep a b = true)
        (pickLongest (runsOf (lcs_dp_with_indices patSeq txtSeq).2)) ∧
      (∀ rn ∈ runsOf (lcs_dp_with_indices patSeq txtSeq).2,
        rn.length ≤
          (pickLongest
            (runsOf (lcs_dp_with_indices patSeq txtSeq).2)).length) ∧
      (runsOf (lcs_dp_with_indices patSeq txtSeq).2).flatten =
        (lcs_dp_with_indices patSeq txtSeq).2) := by
  unfold lcsCore at h
  dsimp only at h
  split at h
  · exact absurd h (by simp)
  · rename_i hguard
    constructor
    · intro hstrong
      rw [if_pos hstrong] at h
      dsimp only at h
      split at h
      · exact absurd h (by simp)
      · rw [Option.some_inj] at h
        subst h
        exact ⟨rfl, rfl⟩
    · intro hweak
      have hns : ¬ (pct (lcs_dp_with_indices patSeq txtSeq).1
          patToks.length ≥ 80) := not_le.mpr hweak
      rw [if_neg hns] at h
      by_cases hcont : (select_longest_contiguous_run
          (lcs_dp_with_indices patSeq txtSeq).2).isEmpty
      · rw [if_pos hcont] at h
        exact absurd h (by simp)
      · rw [if_neg hcont] at h
        split at h
        · exact absurd h (by simp)
        · rename_i percent idxs heq
          rw [Option.some_inj, Prod.ext_iff] at heq
          obtain ⟨h1, h2⟩ := heq
          dsimp only at h1 h2
          split at h
          · exact absurd h (by simp)
          · rw [Option.some_inj] at h
            subst h
            dsimp only
            refine ⟨select_eq_pickLongest _, ?_, ?_, ?_,
              pickLongest_max _, runsOf_flatten _⟩
            · rw [← h1, ← select_eq_pickLongest]
            · rw [← h2, ← select_eq_pickLongest]
            · rcases pickLongest_mem_or_nil
                (runsOf (lcs_dp_with_indices patSeq txtSeq).2) with hm | hm
              · rw [hm]; exact List.chain'_nil
              · exact runsOf_chain _ _ hm

end SLA

namespace SLA

/-- Concrete check of claim C9's weak branch: a 40% match picks the
first longest contiguous run and builds its substring only from that
block's tokens. -/
theorem C9_strong_weak_witness :
    select_longest_contiguous_run [(0, 0), (1, 1)] =
      pickLongest (runsOf [(0, 0), (1, 1)]) ∧
    (pct 2 5 : ℚ) = pct (pickLongest (runsOf [(0, 0), (1, 1)])).length 5 ∧
    "a b".toList = List.intercalate [' ']
      (((pickLongest (runsOf [(0, 0), (1, 1)])).map Prod.snd).map
        (fun i => ((tokenizeSpans "a b x y z".toList).getD i default).raw)) ∧
    List.Chain' (fun a b => succStep a b = true)
      (pickLongest (runsOf [(0, 0), (1, 1)])) ∧
    (∀ rn ∈ runsOf [(0, 0), (1, 1)],
      rn.length ≤ (pickLongest (runsOf [(0, 0), (1, 1)])).length) ∧
    (runsOf [(0, 0), (1, 1)]).flatten = [(0, 0), (1, 1)] :=
  (C9_strong_weak_branches (tokenizeSpans "a b c d e".toList)
    (tokenizeSpans "a b x y z".toList)
    ((tokenizeSpans "a b c d e".toList).map Token.norm)
    ((tokenizeSpans "a b x y z".toList).map Token.norm)
    (pct 2 5, "a b".toList, 0, 3) (by decide)).2 (by decide)

end SLA

namespace SLA

/-- The `last_match_file_idx` returned by the walk either is the value it
started with (no token matched) or points at an in-bounds file token that
matched an in-bounds pattern token, at or after the walk's start. -/
theorem alignGo_last (fileToks : List Token) (pat : List Str) (g : Nat) :
    ∀ (fuel fi pj m : Nat) (last : Int),
      ((alignGo fileToks pat g fuel fi pj m last).1 = m ∧
        (alignGo fileToks pat g fuel fi pj m last).2 = last) ∨
      ((alignGo fileToks pat g fuel fi pj m last).1 > m ∧
        ∃ fi2 pj2 : Nat,
          (alignGo fileToks pat g fuel fi pj m last).2 = Int.ofNat fi2 ∧
          fi ≤ fi2 ∧ fi2 < fileToks.length ∧ pj ≤ pj2 ∧ pj2 < pat.length ∧
          fnorm fileToks fi2 = pat.getD pj2 []) := by
  intro fuel
  induction fuel with
  | zero => intro fi pj m last; exact Or.inl ⟨rfl, rfl⟩
  | succ fuel ih =>
    intro fi pj m last
    rw [alignGo]
    by_cases hcond : fi < fileToks.length ∧ pj < pat.length
    · rw [if_pos hcond]
      by_cases heq : fnorm fileToks fi = pat.getD pj []
      · rw [if_pos heq]
        rcases ih (fi + 1) (pj + 1) (m + 1) (Int.ofNat fi) with
          ⟨h1, h2⟩ | ⟨h1, fi2, pj2, h2, h3, h4, h5, h6, h7⟩
        · exact Or.inr ⟨by omega, fi, pj, h2, le_rfl, hcond.1, le_rfl,
            hcond.2, heq⟩
        · exact Or.inr ⟨by omega, fi2, pj2, h2, by omega, h4, by omega,
            h6, h7⟩
      · rw [if_neg heq]
        rcases hf : findAheadIdx (fileToks.map Token.norm) fi g
          (pat.getD pj []) with _ | nf <;>
        rcases hq : findAheadIdx pat pj g (fnorm fileToks fi) with _ | np <;>
          dsimp only
        · rcases ih (fi + 1) (pj + 1) m last with ⟨h1, h2⟩ |
            ⟨h1, fi2, pj2, h2, h3, h4, h5, h6, h7⟩
          · exact Or.inl ⟨h1, h2⟩
          · exact Or.inr ⟨h1, fi2, pj2, h2, by omega, h4, by omega, h6, h7⟩
        · have hnp := (findAheadIdx_facts hq).1
          rcases ih fi np m last with ⟨h1, h2⟩ |
            ⟨h1, fi2, pj2, h2, h3, h4, h5, h6, h7⟩
          · exact Or.inl ⟨h1, h2⟩
          · exact Or.inr ⟨h1, fi2, pj2, h2, h3, h4, by omega, h6, h7⟩
        · have hnf := (findAheadIdx_facts hf).1
          rcases ih nf pj m last with ⟨h1, h2⟩ |
            ⟨h1, fi2, pj2, h2, h3, h4, h5, h6, h7⟩
          · exact Or.inl ⟨h1, h2⟩
          · exact Or.inr ⟨h1, fi2, pj2, h2, by omega, h4, h5, h6, h7⟩
        · have hnf := (findAheadIdx_facts hf).1
          have hnp := (findAheadIdx_facts hq).1
          by_cases hle : nf - fi ≤ np - pj
          · rw [if_pos hle]
            rcases ih nf pj m last with ⟨h1, h2⟩ |
              ⟨h1, fi2, pj2, h2, h3, h4, h5, h6, h7⟩
            · exact Or.inl ⟨h1, h2⟩
            · exact Or.inr ⟨h1, fi2, pj2, h2, by omega, h4, h5, h6, h7⟩
          · rw [if_neg hle]
            rcases ih fi np m last with ⟨h1, h2⟩ |
              ⟨h1, fi2, pj2, h2, h3, h4, h5, h6, h7⟩
            · exact Or.inl ⟨h1, h2⟩
            · exact Or.inr ⟨h1, fi2, pj2, h2, h3, h4, by omega, h6, h7⟩
    · rw [if_neg hcond]
      exact Or.inl ⟨rfl, rfl⟩

theorem align_with_gaps_last (fileToks : List Token) (pat : List Str)
    (fi_start pj_start g : Nat) :
    ((align_with_gaps fileToks pat fi_start pj_start g).1 = 0 ∧
      (align_with_gaps fileToks pat fi_start pj_start g).2 =
        Int.ofNat fi_start - 1) ∨
    ((align_with_gaps fileToks pat fi_start pj_start g).1 > 0 ∧
      ∃ fi2 pj2 : Nat,
        (align_with_gaps fileToks pat fi_start pj_start g).2 =
          Int.ofNat fi2 ∧
        fi_start ≤ fi2 ∧ fi2 < fileToks.length ∧ pj_start ≤ pj2 ∧
        pj2 < pat.length ∧ fnorm fileToks fi2 = pat.getD pj2 []) := by
  unfold align_with_gaps
  exact alignGo_last fileToks pat g (fileToks.length + pat.length + 1)
    fi_start pj_start 0 (Int.ofNat fi_start - 1)

end SLA

namespace SLA

/-- Every token the scanner emits starts at or after the scan position
and has a nonempty span, and consecutive spans do not overlap. -/
theorem tokenizeGo_spans :
    ∀ (fuel pos : Nat) (s : Str),
      (∀ t ∈ tokenizeGo fuel pos s, pos ≤ t.start ∧ t.start < t.stop) ∧
      List.Chain' (fun a b => a.stop ≤ b.start) (tokenizeGo fuel pos s) := by
  intro fuel
  induction fuel with
  | zero => intro pos s; exact ⟨by simp [tokenizeGo], by simp [tokenizeGo]⟩
  | succ fuel ih =>
    intro pos s
    cases s with
    | nil => exact ⟨by simp [tokenizeGo], by simp [tokenizeGo]⟩
    | cons c rest =>
      by_cases hsp : isPySpace c
      · rw [show tokenizeGo (fuel + 1) pos (c :: rest) =
          tokenizeGo fuel (pos + 1) rest by rw [tokenizeGo, if_pos hsp]]
        refine ⟨fun t ht => ?_, (ih (pos + 1) rest).2⟩
        have := (ih (pos + 1) rest).1 t ht
        omega
      · rw [show tokenizeGo (fuel + 1) pos (c :: rest) =
          mkToken ((c :: rest).takeWhile (fun ch => ¬ isPySpace ch)) pos ::
            tokenizeGo fuel
              (pos + ((c :: rest).takeWhile (fun ch => ¬ isPySpace ch)).length)
              ((c :: rest).drop
                ((c :: rest).takeWhile (fun ch => ¬ isPySpace ch)).length)
          by rw [tokenizeGo, if_neg hsp]]
        have hrunpos : 0 <
            ((c :: rest).takeWhile (fun ch => ¬ isPySpace ch)).length := by
          rw [List.takeWhile_cons]
          simp [hsp]
        set run := (c :: rest).takeWhile (fun ch => ¬ isPySpace ch) with hrun
        set tl := tokenizeGo fuel (pos + run.length)
          ((c :: rest).drop run.length) with htl
        have hih := ih (pos + run.length) ((c :: rest).drop run.length)
        constructor
        · intro t ht
          rcases List.mem_cons.mp ht with ht | ht
          · rw [ht]
            unfold mkToken
            dsimp only
            omega
          · have := hih.1 t ht
            omega
        · apply List.chain'_cons'.mpr
          refine ⟨fun y hy => ?_, hih.2⟩
          have hym : y ∈ tl := List.mem_of_mem_head? hy
          have := hih.1 y hym
          unfold mkToken
          dsimp only
          omega

/-- In a token list with nonempty, non-overlapping, ordered spans, any
earlier token starts no later than any later token stops. -/
theorem spans_mono (d : Token) :
    ∀ (toks : List Token),
      (∀ t ∈ toks, t.start < t.stop) →
      List.Chain' (fun a b => a.stop ≤ b.start) toks →
      ∀ i l : Nat, i ≤ l → l < toks.length →
        (toks.getD i d).start ≤ (toks.getD l d).stop := by
  intro toks
  induction toks with
  | nil => intro _ _ i l _ hl; simp at hl
  | cons a toks ih =>
    intro hss hch i l hil hl
    cases i with
    | zero =>
      cases l with
      | zero =>
        simp only [List.getD_cons_zero]
        exact le_of_lt (hss a (List.mem_cons_self a toks))
      | succ l =>
        simp only [List.getD_cons_zero, List.getD_cons_succ]
        cases toks with
        | nil => simp at hl
        | cons b toks2 =>
          have hab : a.stop ≤ b.start := (List.chain'_cons.mp hch).1
          have hbl : ((b :: toks2).getD 0 d).start ≤
              ((b :: toks2).getD l d).stop := by
            apply ih
            · intro t ht; exact hss t (List.mem_cons_of_mem a ht)
            · exact (List.chain'_cons.mp hch).2
            · omega
            · simpa using hl
          simp only [List.getD_cons_zero] at hbl
          have haa : a.start < a.stop := hss a (List.mem_cons_self a (b :: toks2))
          omega
    | succ i =>
      cases l with
      | zero => omega
      | succ l =>
        simp only [List.getD_cons_succ]
        apply ih
        · intro t ht; exact hss t (List.mem_cons_of_mem a ht)
        · exact List.Chain'.tail hch
        · omega
        · simpa using hl

end SLA

namespace SLA

theorem keepBetter_ex (b : Option MatchResult) (c : MatchResult)
    (r : MatchResult) (h : keepBetter b c = some r) :
    b = some r ∨ c = r := by
  cases b with
  | none => exact Or.inr (Option.some_inj.mp h)
  | some bb =>
    unfold keepBetter at h
    dsimp only at h
    by_cases hc : c.match_percent > bb.match_percent
    · rw [if_pos hc] at h
      exact Or.inr (Option.some_inj.mp h)
    · rw [if_neg hc] at h
      exact Or.inl h

theorem foldl_opt_ex {α : Type} (Q : α → MatchResult → Prop)
    (step : Option MatchResult → α → Option MatchResult)
    (hstep : ∀ b x r, step b x = some r → b = some r ∨ Q x r) :
    ∀ (l : List α) (b : Option MatchResult) (r : MatchResult),
      l.foldl step b = some r → b = some r ∨ ∃ x ∈ l, Q x r := by
  intro l
  induction l with
  | nil => intro b r h; exact Or.inl h
  | cons x l ih =>
    intro b r h
    rw [List.foldl_cons] at h
    rcases ih _ _ h with h2 | h2
    · rcases hstep b x r h2 with h3 | h3
      · exact Or.inl h3
      · exact Or.inr ⟨x, List.mem_cons_self x l, h3⟩
    · obtain ⟨y, hy, hQ⟩ := h2
      exact Or.inr ⟨y, List.mem_cons_of_mem x hy, hQ⟩

/-- A retained result of `best_match_indexed` is one of the candidates:
it arises from an anchor shared by file and pattern, at a recorded file
position `i` and pattern position `j0`. -/
theorem best_match_indexed_ex (f : FileIndex) (p : PatternIndex)
    (anchor_size g : Nat) (r : MatchResult)
    (h : best_match_indexed f p anchor_size g = some r) :
    ∃ kv ∈ f.trigram_positions.filter (fun kv => kv.1 ∈ p.anchor_keys),
      ∃ i ∈ kv.2, ∃ j0 ∈ (alookup p.anchor_positions kv.1).getD [],
        candidateResult f p anchor_size g i j0 = r := by
  unfold best_match_indexed at h
  dsimp only at h
  split at h
  · exact absurd h (by simp)
  · split at h
    · exact absurd h (by simp)
    · have hout := foldl_opt_ex
        (fun kv r => ∃ i ∈ kv.2,
          ∃ j0 ∈ (alookup p.anchor_positions kv.1).getD [],
            candidateResult f p anchor_size g i j0 = r) _
        (fun b kv r hkv => by
          have hmid := foldl_opt_ex
            (fun i r => ∃ j0 ∈ (alookup p.anchor_positions kv.1).getD [],
              candidateResult f p anchor_size g i j0 = r) _
            (fun b2 i r2 hi => by
              have hin := foldl_opt_ex
                (fun j0 r3 => candidateResult f p anchor_size g i j0 = r3)
                _
                (fun b3 j0 r3 hj => by
                  rcases keepBetter_ex b3 _ r3 hj with hh | hh
                  · exact Or.inl hh
                  · exact Or.inr hh)
                ((alookup p.anchor_positions kv.1).getD []) b2 r2 hi
              rcases hin with hh | hh
              · exact Or.inl hh
              · exact Or.inr hh)
            kv.2 b r hkv
          rcases hmid with hh | hh
          · exact Or.inl hh
          · exact Or.inr hh)
        (f.trigram_positions.filter (fun kv => kv.1 ∈ p.anchor_keys))
        none r h
      rcases hout with hh | hh
      · exact absurd hh (by simp)
      · obtain ⟨kv, hkv, i, hi, j0, hj0, hcand⟩ := hh
        exact ⟨kv, hkv, i, hi, j0, hj0, hcand⟩

theorem upsertAnchor_val_sub :
    ∀ (m : AnchorMap) (key : Anchor) (v : Nat) (kv : Anchor × List Nat),
      kv ∈ upsertAnchor m key v → ∀ x ∈ kv.2,
        (∃ kv0 ∈ m, x ∈ kv0.2) ∨ x = v := by
  intro m
  induction m with
  | nil =>
    intro key v kv hkv x hx
    simp only [upsertAnchor, List.mem_singleton] at hkv
    rw [hkv] at hx
    simp only [List.mem_singleton] at hx
    exact Or.inr hx
  | cons kv0 rest ih =>
    obtain ⟨k0, vs⟩ := kv0
    intro key v kv hkv x hx
    by_cases hk : k0 = key
    · rw [show upsertAnchor ((k0, vs) :: rest) key v =
        (k0, vs ++ [v]) :: rest by rw [upsertAnchor, if_pos hk]] at hkv
      rcases List.mem_cons.mp hkv with hkv | hkv
      · rw [hkv] at hx
        rcases List.mem_append.mp hx with hx | hx
        · exact Or.inl ⟨(k0, vs), List.mem_cons_self _ _, hx⟩
        · simp only [List.mem_singleton] at hx
          exact Or.inr hx
      · exact Or.inl ⟨kv, List.mem_cons_of_mem _ hkv, hx⟩
    · rw [show upsertAnchor ((k0, vs) :: rest) key v =
        (k0, vs) :: upsertAnchor rest key v by
          rw [upsertAnchor, if_neg hk]] at hkv
      rcases List.mem_cons.mp hkv with hkv | hkv
      · rw [hkv] at hx
        exact Or.inl ⟨(k0, vs), List.mem_cons_self _ _, hx⟩
      · rcases ih key v kv hkv x hx with ⟨kv0, hkv0, hx0⟩ | hh
        · exact Or.inl ⟨kv0, List.mem_cons_of_mem _ hkv0, hx0⟩
        · exact Or.inr hh

theorem buildAnchorMap_pos_lt (norms : List Str) (k : Nat) :
    ∀ kv ∈ buildAnchorMap norms k, ∀ v ∈ kv.2,
      v < norms.length + 1 - k := by
  have key : ∀ (l : List Nat) (m0 : AnchorMap),
      (∀ kv ∈ m0, ∀ v ∈ kv.2, v < norms.length + 1 - k) →
      (∀ x ∈ l, x < norms.length + 1 - k) →
      ∀ kv ∈ l.foldl
        (fun m i => upsertAnchor m (anchorAt norms i k) i) m0,
        ∀ v ∈ kv.2, v < norms.length + 1 - k := by
    intro l
    induction l with
    | nil => intro m0 hm0 _ kv hkv v hv; exact hm0 kv hkv v hv
    | cons x l ih =>
      intro m0 hm0 hl kv hkv v hv
      rw [List.foldl_cons] at hkv
      refine ih (upsertAnchor m0 (anchorAt norms x k) x) ?_
        (fun y hy => hl y (List.mem_cons_of_mem x hy)) kv hkv v hv
      intro kv2 hkv2 v2 hv2
      rcases upsertAnchor_val_sub m0 _ x kv2 hkv2 v2 hv2 with
        ⟨kv0, hkv0, hv0⟩ | hh
      · exact hm0 kv0 hkv0 v2 hv0
      · rw [hh]
        exact hl x (List.mem_cons_self x l)
  intro kv hkv v hv
  refine key (List.range (norms.length + 1 - k)) [] (by simp) ?_ kv hkv v hv
  intro x hx
  exact List.mem_range.mp hx

end SLA

namespace SLA

/-- Start/end offsets of one candidate: the start offset of the anchor's
first token and the stop offset of the last matched file token — the
anchor's own last token when the gap walk matched nothing, else the
walk's final matched token. -/
theorem candidateResult_spec (f : FileIndex) (p : PatternIndex)
    (k g i j0 : Nat) (hk : 1 ≤ k) (hik : i + k ≤ f.tokens.length) :
    ∃ last : Nat, last < f.tokens.length ∧ i ≤ last ∧
      (candidateResult f p k g i j0).start_index =
        (f.tokens.getD i default).start ∧
      (candidateResult f p k g i j0).end_index =
        (f.tokens.getD last default).stop ∧
      (candidateResult f p k g i j0).matched_substring =
        sliceStr f.text (candidateResult f p k g i j0).start_index
          (candidateResult f p k g i j0).end_index ∧
      (((align_with_gaps f.tokens p.tokens (i + k) (j0 + k) g).1 = 0 ∧
          last = i + k - 1) ∨
        ((align_with_gaps f.tokens p.tokens (i + k) (j0 + k) g).1 > 0 ∧
          i + k ≤ last ∧ ∃ pj, pj < p.tokens.length ∧
            fnorm f.tokens last = p.tokens.getD pj [])) := by
  rcases align_with_gaps_last f.tokens p.tokens (i + k) (j0 + k) g with
    ⟨h0, hl0⟩ | ⟨hpos, fi2, pj2, heq2, hge, hlt, hpjge, hpjlt, hmatch⟩
  · refine ⟨i + k - 1, by omega, by omega, rfl, ?_, rfl,
      Or.inl ⟨h0, rfl⟩⟩
    unfold candidateResult
    dsimp only
    rw [if_neg (by omega :
      ¬ (align_with_gaps f.tokens p.tokens (i + k) (j0 + k) g).1 > 0)]
    rw [show (Int.ofNat (i + k) - 1).toNat = i + k - 1 by
      rw [Int.ofNat_eq_natCast]; omega]
  · refine ⟨fi2, hlt, by omega, rfl, ?_, rfl,
      Or.inr ⟨hpos, hge, pj2, hpjlt, hmatch⟩⟩
    unfold candidateResult
    dsimp only
    rw [if_pos hpos, heq2]
    rw [show (Int.ofNat fi2).toNat = fi2 by
      rw [Int.ofNat_eq_natCast]; omega]

/-- Claim C6: every retained result of `best_match_indexed` has its
matched substring equal to the file's normalized text sliced between its
own start and end offsets, with start offset at the anchor's first token
and end offset at the stop of the last token that actually matched
during the walk (the anchor's last token when the gap walk matched
nothing) — tokens visited after the last successful match contribute
nothing — and start_index ≤ end_index. -/
theorem C6_substring_slice_offsets (content : Str) (p : PatternIndex)
    (k g : Nat) (hk : 1 ≤ k) (r : MatchResult)
    (h : best_match_indexed (buildFileIndex content k) p k g = some r) :
    r.matched_substring = sliceStr (buildFileIndex content k).text
      r.start_index r.end_index ∧
    r.start_index ≤ r.end_index ∧
    ∃ i j0 last : Nat,
      i + k ≤ (buildFileIndex content k).tokens.length ∧
      candidateResult (buildFileIndex content k) p k g i j0 = r ∧
      last < (buildFileIndex content k).tokens.length ∧ i ≤ last ∧
      r.start_index =
        ((buildFileIndex content k).tokens.getD i default).start ∧
      r.end_index =
        ((buildFileIndex content k).tokens.getD last default).stop ∧
      (((align_with_gaps (buildFileIndex content k).tokens p.tokens
          (i + k) (j0 + k) g).1 = 0 ∧ last = i + k - 1) ∨
       ((align_with_gaps (buildFileIndex content k).tokens p.tokens
          (i + k) (j0 + k) g).1 > 0 ∧ i + k ≤ last ∧
         ∃ pj, pj < p.tokens.length ∧
           fnorm (buildFileIndex content k).tokens last =
             p.tokens.getD pj [])) := by
  obtain ⟨kv, hkv, i, hi, j0, hj0, hcand⟩ :=
    best_match_indexed_ex (buildFileIndex content k) p k g r h
  have hkvm : kv ∈ (buildFileIndex content k).trigram_positions :=
    (List.mem_filter.mp hkv).1
  have hib := buildAnchorMap_pos_lt
    (((buildFileIndex content k).tokens).map Token.norm) k kv hkvm i hi
  have hik : i + k ≤ (buildFileIndex content k).tokens.length := by
    rw [List.length_map] at hib
    omega
  obtain ⟨last, hl1, hl2, hs, he, hsl, hbr⟩ :=
    candidateResult_spec (buildFileIndex content k) p k g i j0 hk hik
  rw [hcand] at hs he hsl
  have hfacts := tokenizeGo_spans
    ((remove_punctuation_and_normalize_text content).length) 0
    (remove_punctuation_and_normalize_text content)
  have hmono := spans_mono default ((buildFileIndex content k).tokens)
    (fun t ht => (hfacts.1 t ht).2) hfacts.2 i last hl2 hl1
  refine ⟨hsl, ?_, i, j0, last, hik, hcand, hl1, hl2, hs, he, hbr⟩
  rw [hs, he]
  exact hmono

/-- Concrete check of claim C6 on a two-token file matching a two-token
pattern with anchor size 1: the 100% result's substring is the slice
between offsets 0 and 5, and the end offset is the stop of the gap
walk's final matched token. -/
theorem C6_substring_slice_witness :
    ("aa bb".toList : Str) =
      sliceStr (buildFileIndex "aa bb".toList 1).text 0 5 ∧
    (0 : Nat) ≤ 5 ∧
    ∃ i j0 last : Nat,
      i + 1 ≤ (buildFileIndex "aa bb".toList 1).tokens.length ∧
      candidateResult (buildFileIndex "aa bb".toList 1)
        (buildPatternIndex "p".toList "aa bb".toList 1) 1 5 i j0 =
        { matched_substring := "aa bb".toList, match_percent := 100,
          start_index := 0, end_index := 5 } ∧
      last < (buildFileIndex "aa bb".toList 1).tokens.length ∧ i ≤ last ∧
      (0 : Nat) =
        ((buildFileIndex "aa bb".toList 1).tokens.getD i default).start ∧
      (5 : Nat) =
        ((buildFileIndex "aa bb".toList 1).tokens.getD last default).stop ∧
      (((align_with_gaps (buildFileIndex "aa bb".toList 1).tokens
          (buildPatternIndex "p".toList "aa bb".toList 1).tokens
          (i + 1) (j0 + 1) 5).1 = 0 ∧ last = i + 1 - 1) ∨
       ((align_with_gaps (buildFileIndex "aa bb".toList 1).tokens
          (buildPatternIndex "p".toList "aa bb".toList 1).tokens
          (i + 1) (j0 + 1) 5).1 > 0 ∧ i + 1 ≤ last ∧
         ∃ pj, pj < (buildPatternIndex "p".toList "aa bb".toList 1).tokens.length ∧
           fnorm (buildFileIndex "aa bb".toList 1).tokens last =
             (buildPatternIndex "p".toList "aa bb".toList 1).tokens.getD
               pj [])) :=
  C6_substring_slice_offsets "aa bb".toList
    (buildPatternIndex "p".toList "aa bb".toList 1) 1 5 (by decide)
    { matched_substring := "aa bb".toList, match_percent := 100,
      start_index := 0, end_index := 5 } (by decide)

end SLA
